import Mathlib

/-!
# Vectorisation pass of the GLSL compiler (`src/glsl/opt_vectorize.cpp`)

A shallow embedding of the pass that combines scalar assignments of the same
expression (modulo swizzle) to several channels of one variable into a single
vector assignment, followed by theorems about it.

The file `opt_vectorize.cpp` is embedded function by function.  The IR node
classes, the hierarchical visitor and `equals` live in other files of the
compiler; the parts of them the pass relies on are modelled from the
specification and are marked as such.
-/

set_option autoImplicit false
set_option linter.unusedVariables false

namespace Vectorize

/-! ## IR tree model -/

/-- Modelled from the spec: the type of an IR node, a base type together with
a component count (the class `glsl_type` is declared in `glsl_types.h`). -/
structure glsl_type where
  base_type : Nat
  vector_elements : Nat
deriving DecidableEq, Repr

namespace glsl_type

/-- Modelled from the spec: `glsl_type::get_instance(base_type, rows, 1)`, the
type with the given base type widened to `rows` components. -/
def get_instance (base_type rows : Nat) : glsl_type := ⟨base_type, rows⟩

/-- Modelled from the spec: a vector-typed node has more than one component. -/
def is_vector (t : glsl_type) : Bool := decide (1 < t.vector_elements)

/-- Modelled from the spec: a scalar-typed node has exactly one component. -/
def is_scalar (t : glsl_type) : Bool := decide (t.vector_elements = 1)

end glsl_type

/-- Modelled from the spec: a variable reference identifies a storage location
and its declared type. -/
structure ir_variable where
  id : Nat
  type : glsl_type
deriving DecidableEq, Repr

/-- Modelled from the spec: the ordered source-component indices of a swizzle
and its width (`ir_swizzle_mask` of `ir.h`; the `has_duplicates` bit, which no
function of the pass reads, is left out). -/
structure ir_swizzle_mask where
  x : Nat
  y : Nat
  z : Nat
  w : Nat
  num_components : Nat
deriving DecidableEq, Repr

mutual
/-- Modelled from the spec: the right-hand-side trees, built from variable
references, swizzles and n-ary expressions. -/
inductive ir_rvalue where
  | deref (var : ir_variable)
  | swizzle (val : ir_rvalue) (mask : ir_swizzle_mask) (type : glsl_type)
  | expression (type : glsl_type) (operation : Nat) (operands : ir_operands)
deriving DecidableEq
/-- Modelled from the spec: the operand array of an expression (at most four
entries in the compiler). -/
inductive ir_operands where
  | nil
  | cons (head : ir_rvalue) (tail : ir_operands)
deriving DecidableEq
end

/-- The result type stored in a node (`ir->type`). -/
def ir_rvalue.type : ir_rvalue → glsl_type
  | .deref var => var.type
  | .swizzle _ _ t => t
  | .expression t _ _ => t

mutual
/-- Modelled from the spec: the masks of the swizzle nodes of a tree in the
order in which the depth-first traversal enters them. -/
def ir_rvalue.swizzles : ir_rvalue → List ir_swizzle_mask
  | .deref _ => []
  | .swizzle val m _ => m :: val.swizzles
  | .expression _ _ ops => ops.swizzles
/-- Modelled from the spec: the swizzle masks met in an operand array, left to
right. -/
def ir_operands.swizzles : ir_operands → List ir_swizzle_mask
  | .nil => []
  | .cons a as => a.swizzles ++ as.swizzles
end

mutual
/-- Modelled from the spec: structural equality of two trees.  With
`ignore_swizzle` set, corresponding swizzle nodes may differ in mask and width
while everything else (operations, types, variable identities) is identical. -/
def ir_rvalue.equals : ir_rvalue → ir_rvalue → Bool → Bool
  | .deref v, .deref w, _ => v == w
  | .swizzle v m t, .swizzle v' m' t', ignore_swizzle =>
      (if ignore_swizzle then t.base_type == t'.base_type else (t == t' && m == m'))
        && v.equals v' ignore_swizzle
  | .expression t o ops, .expression t' o' ops', ignore_swizzle =>
      t == t' && o == o' && ops.equals ops' ignore_swizzle
  | _, _, _ => false
/-- Modelled from the spec: pointwise equality of two operand arrays. -/
def ir_operands.equals : ir_operands → ir_operands → Bool → Bool
  | .nil, .nil, _ => true
  | .cons a as, .cons b bs, ignore_swizzle =>
      a.equals b ignore_swizzle && as.equals bs ignore_swizzle
  | _, _, _ => false
end

/-- Modelled from the spec: an assignment has a destination reference, a
right-hand side, an optional guard and a write mask. -/
structure ir_assignment where
  lhs : ir_variable
  rhs : ir_rvalue
  condition : Option ir_rvalue
  write_mask : Nat
deriving DecidableEq

/-- The statement list the pass works on.  Position `p` stands for the node the
pointers of the visitor refer to; `none` marks a node taken out of the list by
`remove()`. -/
abbrev exec_list := List (Option ir_assignment)

/-- Reads the node behind pointer `p`. -/
def node (l : exec_list) (p : Nat) : Option ir_assignment := (l[p]?).join

/-- In-place update of the node behind pointer `p`. -/
def update (l : exec_list) (p : Nat) (f : ir_assignment → ir_assignment) : exec_list :=
  match node l p with
  | some a => l.set p (some (f a))
  | none => l

/-- The method `exec_node::remove()`: unlinks node `p` from the list. -/
def remove (l : exec_list) (p : Nat) : exec_list := l.set p none

/-! ## Constants of `program/prog_instruction.h` -/

/-- Modelled from the spec: write-mask bit of channel X. -/
def WRITEMASK_X : Nat := 1
/-- Modelled from the spec: write-mask bit of channel Y. -/
def WRITEMASK_Y : Nat := 2
/-- Modelled from the spec: write-mask bit of channel Z. -/
def WRITEMASK_Z : Nat := 4
/-- Modelled from the spec: write-mask bit of channel W. -/
def WRITEMASK_W : Nat := 8
/-- Modelled from the spec: source component 0. -/
def SWIZZLE_X : Nat := 0
/-- Modelled from the spec: source component 1. -/
def SWIZZLE_Y : Nat := 1
/-- Modelled from the spec: source component 2. -/
def SWIZZLE_Z : Nat := 2
/-- Modelled from the spec: source component 3. -/
def SWIZZLE_W : Nat := 3

/-! ## The visitor -/

/-- The class `ir_vectorize_visitor`, together with the statement list its
pointers point into. -/
structure ir_vectorize_visitor where
  assignment : List (Option Nat)
  current_assignment : Option Nat
  last_assignment : Option Nat
  channels : Nat
  has_swizzle : Bool
  progress : Bool
  instructions : exec_list

/-- The method `ir_vectorize_visitor::clear()`. -/
def clear (v : ir_vectorize_visitor) : ir_vectorize_visitor :=
  { v with
    assignment := [none, none, none, none]
    current_assignment := none
    last_assignment := none
    channels := 0
    has_swizzle := false }

/-- The constructor of `ir_vectorize_visitor`, on a given statement list. -/
def ir_vectorize_visitor.new (instructions : exec_list) : ir_vectorize_visitor :=
  { assignment := [none, none, none, none]
    current_assignment := none
    last_assignment := none
    channels := 0
    has_swizzle := false
    progress := false
    instructions := instructions }

/-- Modelled from the spec: the constructor `ir_swizzle(val, x, y, z, w, count)`,
a swizzle of width `count` whose type has the base type of `val`. -/
def ir_swizzle.new (val : ir_rvalue) (x y z w count : Nat) : ir_rvalue :=
  .swizzle val ⟨x, y, z, w, count⟩ (glsl_type.get_instance val.type.base_type count)

/-- The loop body of the expression case of `rewrite_swizzle`: an operand that
is a scalar dereference is replaced by a broadcasting swizzle. -/
def rewrite_operand (o : ir_rvalue) (mask : ir_swizzle_mask) : ir_rvalue :=
  match o with
  | .deref var =>
      if var.type.is_scalar then ir_swizzle.new (.deref var) 0 0 0 0 mask.num_components
      else .deref var
  | .swizzle val m t => .swizzle val m t
  | .expression t op ops => .expression t op ops

/-- The operand loop of the expression case of `rewrite_swizzle` (the operand
array has four entries, all of which the loop inspects). -/
def rewrite_operands : ir_operands → ir_swizzle_mask → ir_operands
  | .nil, _ => .nil
  | .cons o rest, mask => .cons (rewrite_operand o mask) (rewrite_operands rest mask)

/-- The callback `rewrite_swizzle(ir, data)`, returning the node it leaves. -/
def rewrite_swizzle (ir : ir_rvalue) (mask : ir_swizzle_mask) : ir_rvalue :=
  match ir with
  | .swizzle val m t =>
      .swizzle val (if val.type.is_vector then mask else m)
        (glsl_type.get_instance t.base_type mask.num_components)
  | .expression t op operands =>
      .expression (glsl_type.get_instance t.base_type mask.num_components) op
        (rewrite_operands operands mask)
  | .deref var => .deref var

mutual
/-- Nesting depth of a tree; a dereference counts nothing, so wrapping one in a
swizzle stays below the enclosing expression. -/
def ir_rvalue.depth : ir_rvalue → Nat
  | .deref _ => 0
  | .swizzle val _ _ => val.depth + 1
  | .expression _ _ ops => ops.depth + 2
/-- Largest depth among the operands. -/
def ir_operands.depth : ir_operands → Nat
  | .nil => 0
  | .cons a as => max a.depth as.depth
end

/-- Applies `f` to every operand. -/
def ir_operands.map (f : ir_rvalue → ir_rvalue) : ir_operands → ir_operands
  | .nil => .nil
  | .cons o rest => .cons (f o) (rest.map f)

/-- Modelled from the spec: the depth-first walk of `visit_tree` with a bound
on the nesting depth it may descend.  The walk calls the callback on a node
when it enters it and then descends into the children the node has at that
moment. -/
def visit_tree_fuel (mask : ir_swizzle_mask) : Nat → ir_rvalue → ir_rvalue
  | 0, ir => ir
  | fuel + 1, ir =>
      match rewrite_swizzle ir mask with
      | .deref var => .deref var
      | .swizzle val m t => .swizzle (visit_tree_fuel mask fuel val) m t
      | .expression t op ops => .expression t op (ops.map (visit_tree_fuel mask fuel))

/-- Modelled from the spec: `visit_tree(ir, rewrite_swizzle, &mask)`.  The bound
`ir.depth + 1` lets the walk reach every node (`visit_tree_swizzle`,
`visit_tree_expression` below). -/
def visit_tree (ir : ir_rvalue) (mask : ir_swizzle_mask) : ir_rvalue :=
  visit_tree_fuel mask (ir.depth + 1) ir

/-- Modelled from the spec: the walk over the operands of an expression. -/
def visit_operands (ops : ir_operands) (mask : ir_swizzle_mask) : ir_operands :=
  ops.map (fun o => visit_tree o mask)

/-- The body of the loop over the four slots in `try_vectorize`: when slot `i`
is filled, bit `i` is added to the write mask of the last assignment and the
statement in the slot is removed unless it is the last assignment. -/
def try_vectorize_slot (assignment : List (Option Nat)) (last : Nat)
    (l : exec_list) (i : Nat) : exec_list :=
  match assignment.getD i none with
  | some p =>
      let l := update l last (fun a => { a with write_mask := a.write_mask ||| (1 <<< i) })
      if p ≠ last then remove l p else l
  | none => l

/-- Attempt to vectorize the previously saved assignments, and clear them from
consideration (the method `ir_vectorize_visitor::try_vectorize()`). -/
def try_vectorize (v : ir_vectorize_visitor) : ir_vectorize_visitor :=
  match v.last_assignment with
  | some last =>
      if v.channels > 1 then
        let mask : ir_swizzle_mask := ⟨0, 1, 2, 3, v.channels⟩
        let l := update v.instructions last (fun a => { a with rhs := visit_tree a.rhs mask })
        let l := update l last (fun a => { a with write_mask := 0 })
        let l := [0, 1, 2, 3].foldl (try_vectorize_slot v.assignment last) l
        clear { v with instructions := l, progress := true }
      else clear v
  | none => clear v

/-- Returns whether the write mask is a single channel
(`single_channel_write_mask`, on 32-bit unsigned arithmetic). -/
def single_channel_write_mask (write_mask : Nat) : Bool :=
  write_mask != 0 && (write_mask &&& ((write_mask + 4294967295) % 4294967296)) == 0

/-- Translates single-channeled write mask to single-channeled swizzle
(`write_mask_to_swizzle`); `none` stands for the failed assertion. -/
def write_mask_to_swizzle (write_mask : Nat) : Option Nat :=
  if write_mask = WRITEMASK_X then some SWIZZLE_X
  else if write_mask = WRITEMASK_Y then some SWIZZLE_Y
  else if write_mask = WRITEMASK_Z then some SWIZZLE_Z
  else if write_mask = WRITEMASK_W then some SWIZZLE_W
  else none

/-- Returns whether a single-channeled write mask matches a swizzle
(`write_mask_matches_swizzle`). -/
def write_mask_matches_swizzle (write_mask : Nat) (swz : ir_swizzle_mask) : Bool :=
  (write_mask == WRITEMASK_X && swz.x == SWIZZLE_X) ||
  (write_mask == WRITEMASK_Y && swz.x == SWIZZLE_Y) ||
  (write_mask == WRITEMASK_Z && swz.x == SWIZZLE_Z) ||
  (write_mask == WRITEMASK_W && swz.x == SWIZZLE_W)

/-- The condition under which `visit_enter(ir_assignment *)` calls
`try_vectorize()`; `last` is the node behind `last_assignment`, if that pointer
is set. -/
def incompatible (channels : Nat) (last : Option ir_assignment) (ir : ir_assignment) : Bool :=
  ir.condition.isSome ||
  decide (channels ≥ 4) ||
  !single_channel_write_mask ir.write_mask ||
  (match last with
   | some la => !(ir.lhs == la.lhs)
   | none => false) ||
  (match last with
   | some la => !(ir.rhs.equals la.rhs true)
   | none => false)

/-- The method `ir_vectorize_visitor::visit_enter(ir_assignment *)`; `p` is the
pointer to the node and `ir` the node.  The result is `none` when
`last_assignment` points to a node that is no longer in the list. -/
def visit_enter_assignment (v : ir_vectorize_visitor) (p : Nat) (ir : ir_assignment) :
    Option ir_vectorize_visitor :=
  match v.last_assignment with
  | some q =>
      match node v.instructions q with
      | some la =>
          let v := if incompatible v.channels (some la) ir then try_vectorize v else v
          some { v with current_assignment := some p }
      | none => none
  | none =>
      let v := if incompatible v.channels none ir then try_vectorize v else v
      some { v with current_assignment := some p }

/-- The method `ir_vectorize_visitor::visit_enter(ir_swizzle *)`; `swz` is the
mask of the swizzle entered. -/
def visit_enter_swizzle (v : ir_vectorize_visitor) (swz : ir_swizzle_mask) :
    Option ir_vectorize_visitor :=
  match v.current_assignment with
  | some cur =>
      match node v.instructions cur with
      | some a =>
          if write_mask_matches_swizzle a.write_mask swz then some { v with has_swizzle := true }
          else some { v with current_assignment := none }
      | none => none
  | none => some v

/-- The method `ir_vectorize_visitor::visit_leave(ir_assignment *)`; `none`
stands for a failed assertion. -/
def visit_leave_assignment (v : ir_vectorize_visitor) (p : Nat) :
    Option ir_vectorize_visitor :=
  let r : Option ir_vectorize_visitor :=
    match v.has_swizzle, v.current_assignment with
    | true, some cur =>
        if cur = p then
          match node v.instructions cur with
          | some a =>
              match write_mask_to_swizzle a.write_mask with
              | some channel =>
                  some { v with
                    assignment := v.assignment.set channel (some p)
                    channels := v.channels + 1
                    last_assignment := some cur }
              | none => none
          | none => none
        else none
    | _, _ => some v
  r.map fun v => { v with current_assignment := none, has_swizzle := false }

/-- Feeds the swizzle nodes of a right-hand side to `visit_enter(ir_swizzle *)`
in traversal order. -/
def visit_swizzles : List ir_swizzle_mask → ir_vectorize_visitor → Option ir_vectorize_visitor
  | [], v => some v
  | swz :: rest, v =>
      match visit_enter_swizzle v swz with
      | some v => visit_swizzles rest v
      | none => none

/-- Modelled from the spec: the traversal of one statement, which enters the
assignment, then the swizzle nodes of its right-hand side, and then leaves the
assignment.  A node that is no longer in the list is not visited. -/
def accept (v : ir_vectorize_visitor) (p : Nat) : Option ir_vectorize_visitor :=
  match node v.instructions p with
  | some ir =>
      match visit_enter_assignment v p ir with
      | some v =>
          match visit_swizzles ir.rhs.swizzles v with
          | some v => visit_leave_assignment v p
          | none => none
      | none => none
  | none => some v

/-- Modelled from the spec: the traversal of a list of statements in order. -/
def visit_list : List Nat → ir_vectorize_visitor → Option ir_vectorize_visitor
  | [], v => some v
  | p :: rest, v =>
      match accept v p with
      | some v => visit_list rest v
      | none => none

/-- Modelled from the spec: `v.run(instructions)`, one traversal of the whole
statement list. -/
def run (v : ir_vectorize_visitor) : Option ir_vectorize_visitor :=
  visit_list (List.range v.instructions.length) v

/-- The statements that are left in the list. -/
def remaining (l : exec_list) : List ir_assignment := l.filterMap id

/-- The function `do_vectorize(instructions)`: the statement list it leaves and
the flag it returns; `none` stands for a failed assertion. -/
def do_vectorize (instructions : List ir_assignment) : Option (List ir_assignment × Bool) :=
  match run (ir_vectorize_visitor.new (instructions.map some)) with
  | some v =>
      let v := try_vectorize v
      some (remaining v.instructions, v.progress)
  | none => none

/-! ## Meaning of statements -/

/-- The value of every variable, as the list of its components. -/
abbrev store := ir_variable → List Int

mutual
/-- Modelled from the spec: the value of a right-hand side.  A swizzle selects
the listed source components of its operand, an expression applies its
operation component by component; `sem` gives the meaning of the operations. -/
def ir_rvalue.eval (sem : Nat → List Int → Int) (σ : store) : ir_rvalue → List Int
  | .deref var => σ var
  | .swizzle val m _ =>
      ([m.x, m.y, m.z, m.w].take m.num_components).map (fun c => (val.eval sem σ).getD c 0)
  | .expression t op ops =>
      (List.range t.vector_elements).map (fun i => sem op (ops.eval_at sem σ i))
/-- Modelled from the spec: component `i` of every operand. -/
def ir_operands.eval_at (sem : Nat → List Int → Int) (σ : store) : ir_operands → Nat → List Int
  | .nil, _ => []
  | .cons a as, i => (a.eval sem σ).getD i 0 :: as.eval_at sem σ i
end

/-- Modelled from the spec: the channels enabled in a write mask, in order. -/
def enabled_channels (write_mask : Nat) : List Nat :=
  [0, 1, 2, 3].filter (fun c => write_mask.testBit c)

/-- Modelled from the spec: a vector assignment stores the i-th component of its
right-hand side into the i-th enabled channel of its write mask. -/
def store_channels (old : List Int) (channels : List Nat) (vals : List Int) : List Int :=
  (channels.zip vals).foldl (fun acc cx => acc.set cx.1 cx.2) old

/-- Modelled from the spec: executing one assignment; a guarded assignment
takes effect when its guard is non-zero. -/
def ir_assignment.exec (sem : Nat → List Int → Int) (σ : store) (a : ir_assignment) : store :=
  let go : Bool :=
    match a.condition with
    | some c => (c.eval sem σ).getD 0 0 != 0
    | none => true
  if go then
    Function.update σ a.lhs
      (store_channels (σ a.lhs) (enabled_channels a.write_mask) (a.rhs.eval sem σ))
  else σ

/-- Modelled from the spec: executing a statement sequence in order. -/
def exec_statements (sem : Nat → List Int → Int) (σ : store) (l : List ir_assignment) : store :=
  l.foldl (ir_assignment.exec sem) σ

/-! ## Statement families used by the scenarios -/

/-- The swizzle selecting the single component `i` of variable `v`. -/
def component (v : ir_variable) (i : Nat) : ir_rvalue :=
  ir_swizzle.new (.deref v) i 0 0 0 1

/-- The unguarded statement `r.<i> = op(v.<j>)`, the operation having base
type `b`. -/
def unary_assign (r : ir_variable) (i : Nat) (b op : Nat) (v : ir_variable) (j : Nat) :
    ir_assignment :=
  { lhs := r
    rhs := .expression ⟨b, 1⟩ op (.cons (component v j) .nil)
    condition := none
    write_mask := 1 <<< i }

/-- The scalarized sequence `r.<i> = op(v.<i>)` for `i = 0 .. N-1`. -/
def scalarized (N b op : Nat) (v r : ir_variable) : List ir_assignment :=
  (List.range N).map (fun i => unary_assign r i b op v i)

/-- The unguarded statement `r.<i> = op(a.<i>, b)` with `b` a bare variable
reference. -/
def binary_assign (r : ir_variable) (i : Nat) (t op : Nat) (a b : ir_variable) : ir_assignment :=
  { lhs := r
    rhs := .expression ⟨t, 1⟩ op (.cons (component a i) (.cons (.deref b) .nil))
    condition := none
    write_mask := 1 <<< i }

/-! ## Runs -/

/-- The commit rule of one statement: at least one swizzle node is entered on
its right-hand side and the first component of every swizzle entered is the
channel of the write mask. -/
def commits (ir : ir_assignment) : Bool :=
  !ir.rhs.swizzles.isEmpty && ir.rhs.swizzles.all (write_mask_matches_swizzle ir.write_mask)

/-- The slot a committed statement is stored in. -/
def slot_of (ir : ir_assignment) : Nat := (write_mask_to_swizzle ir.write_mask).getD 0

/-- The visitor after `visit_leave` has stored statement `p` in slot `ch`. -/
def commit (v : ir_vectorize_visitor) (p ch : Nat) : ir_vectorize_visitor :=
  { v with
    assignment := v.assignment.set ch (some p)
    channels := v.channels + 1
    last_assignment := some p
    current_assignment := none
    has_swizzle := false }

/-- The visitor after `visit_leave` has left a statement without storing it. -/
def skip (v : ir_vectorize_visitor) : ir_vectorize_visitor :=
  { v with current_assignment := none, has_swizzle := false }

/-- The statement an anchor is rewritten to: its right-hand side widened to `N`
components and its write mask replaced by `w`. -/
def rewritten (a : ir_assignment) (N w : Nat) : ir_assignment :=
  { a with rhs := visit_tree a.rhs ⟨0, 1, 2, 3, N⟩, write_mask := w }

/-- The statements committed to the open run after statement `p` has been
visited, given the run `R` that was open before: the run is emptied when the
statement is incompatible with it, and the statement joins it when it
commits. -/
def run_step (l : List ir_assignment) (R : List Nat) (p : Nat) : List Nat :=
  match l[p]? with
  | some ir =>
      let R := if incompatible R.length (R.getLast?.bind (fun q => l[q]?)) ir then [] else R
      if commits ir then R ++ [p] else R
  | none => R

/-- The statements committed to the run that is open once the first `m`
statements of `l` have been visited, in the order in which they were
committed. -/
def open_run (l : List ir_assignment) (m : Nat) : List Nat :=
  (List.range m).foldl (run_step l) []

/-- The union of a list of write masks. -/
def union_masks (ms : List Nat) : Nat := ms.foldl (fun w m => w ||| m) 0

/-- The write masks that the statements at the positions `R` have in the
input `l`. -/
def run_masks (l : List ir_assignment) (R : List Nat) : List Nat :=
  R.filterMap (fun j => (l[j]?).map (fun a => a.write_mask))

/-- The visitor once the first `m` statements of `l` have been visited. -/
def state_after (l : List ir_assignment) (m : Nat) : Option ir_vectorize_visitor :=
  visit_list (List.range m) (ir_vectorize_visitor.new (l.map some))

/-- The statement entered at position `m` seals the run that is open there. -/
def seals_at (l : List ir_assignment) (m : Nat) : Prop :=
  ∃ ir, l[m]? = some ir ∧
    incompatible (open_run l m).length ((open_run l m).getLast?.bind (fun q => l[q]?)) ir = true

/-- The list `R` is a run of `l` at the moment it is sealed: the statements
committed to the run that is open when the statement at some position `m`
seals it, or when the end of the list is reached. -/
def sealed_run (l : List ir_assignment) (R : List Nat) : Prop :=
  ∃ m, (m = l.length ∨ seals_at l m) ∧ open_run l m = R

/-- What the pass has done to statement `j` of the input `l`, read off the
statement list `L`.  Either the statement is untouched; or it is the anchor
(the last committed statement) of a sealed run `R` of at least two statements
and was rewritten in place to the width of the run, with the union of the write
masks of the run as write mask; or it was removed, in which case it has a
single-channel write mask and was committed to a sealed run `R` whose anchor
`k` is a later statement, rewritten in place, with the destination of `j` and
with an original right-hand side equal to that of `j` modulo swizzle.
`closed k` is a side condition on the anchor. -/
def Settled (l : List ir_assignment) (L : exec_list) (closed : Nat → Prop) (j : Nat) : Prop :=
  ∃ a, l[j]? = some a ∧
    (L[j]? = some (some a) ∨
     (∃ R, sealed_run l R ∧ 2 ≤ R.length ∧ R.getLast? = some j ∧
       L[j]? = some (some (rewritten a R.length (union_masks (run_masks l R))))) ∨
     (L[j]? = some none ∧ single_channel_write_mask a.write_mask = true ∧
       ∃ R k b, sealed_run l R ∧ 2 ≤ R.length ∧ j ∈ R ∧ R.getLast? = some k ∧
         j < k ∧ closed k ∧ l[k]? = some b ∧
         L[k]? = some (some (rewritten b R.length (union_masks (run_masks l R)))) ∧
         a.lhs = b.lhs ∧ a.rhs.equals b.rhs true = true))

/-- Some run of `l` is rewritten: a run of at least two committed statements is
open when a statement seals it, or when the end of the list is reached. -/
def run_rewritten (l : List ir_assignment) : Prop :=
  (∃ m, m < l.length ∧ seals_at l m ∧ 1 < (open_run l m).length) ∨
    1 < (open_run l l.length).length

/-- The write-mask bits that the slot loop of `try_vectorize` adds for the
slots `is`. -/
def slot_bits (assignment : List (Option Nat)) (is : List Nat) (w : Nat) : Nat :=
  is.foldl (fun w i => if (assignment.getD i none).isSome then w ||| (1 <<< i) else w) w

/-- The visitor `v` between two statements: the first `m` statements of `l` have
been visited and `R` lists the statements committed to the open run. -/
structure Inv (l : List ir_assignment) (m : Nat) (R : List Nat) (v : ir_vectorize_visitor) :
    Prop where
  len : v.instructions.length = l.length
  cur : v.current_assignment = none
  hs : v.has_swizzle = false
  slots : v.assignment.length = 4
  chan : v.channels = R.length
  last : v.last_assignment = R.getLast?
  size : R.length ≤ 4
  lt : ∀ j ∈ R, j < m
  le_last : ∀ j ∈ R, ∀ k, R.getLast? = some k → j ≤ k
  live : ∀ j ∈ R, ∃ a, l[j]? = some a ∧ v.instructions[j]? = some (some a) ∧ commits a = true ∧
    (v.assignment.getD (slot_of a) none).isSome = true
  slot : ∀ i j, v.assignment.getD i none = some j → j ∈ R ∧ ∃ a, l[j]? = some a ∧ slot_of a = i
  compat : ∀ j ∈ R, ∀ k, R.getLast? = some k →
    ∃ a b, l[j]? = some a ∧ l[k]? = some b ∧ a.lhs = b.lhs ∧ a.rhs.equals b.rhs true = true
  future : ∀ j, m ≤ j → v.instructions[j]? = (l[j]?).map some
  settled : ∀ j, j < m → j ∉ R → j < l.length →
    Settled l v.instructions (fun k => k < m ∧ k ∉ R) j
  prog_false : v.progress = false → v.instructions = l.map some
  prog_true : v.progress = true → ∃ k a N w, (k < m ∧ k ∉ R) ∧ l[k]? = some a ∧
    commits a = true ∧ 2 ≤ N ∧ v.instructions[k]? = some (some (rewritten a N w))

/-! ## The rewrite described node by node -/

mutual
/-- The rewrite of a right-hand side to width `N` described node by node, every
operand type being the type the operand has BEFORE the rewrite.  A swizzle whose
operand was vector-typed before the rewrite gets the mask (0, 1, 2, 3) with `N`
components, a swizzle whose operand was not vector-typed keeps its mask, and
both get result width `N`; an expression gets result width `N` and keeps its
base type and operation; a variable reference is left as it is. -/
def rewrite_spec (N : Nat) : ir_rvalue → ir_rvalue
  | .deref var => .deref var
  | .swizzle val m t =>
      .swizzle (rewrite_spec N val) (if val.type.is_vector then ⟨0, 1, 2, 3, N⟩ else m)
        ⟨t.base_type, N⟩
  | .expression t op ops => .expression ⟨t.base_type, N⟩ op (rewrite_spec_operands N ops)
/-- The operands of an expression after the rewrite, in the words of the
specification: an operand that is a bare scalar-typed variable reference is
replaced by a new swizzle of width `N` over that reference which selects
component 0 in every position; every other operand is rewritten as a tree. -/
def rewrite_spec_operands (N : Nat) : ir_operands → ir_operands
  | .nil => .nil
  | .cons (.deref var) rest =>
      .cons (if var.type.is_scalar then
          .swizzle (.deref var) ⟨0, 0, 0, 0, N⟩ ⟨var.type.base_type, N⟩
        else .deref var) (rewrite_spec_operands N rest)
  | .cons (.swizzle val m t) rest =>
      .cons (rewrite_spec N (.swizzle val m t)) (rewrite_spec_operands N rest)
  | .cons (.expression t op ops) rest =>
      .cons (rewrite_spec N (.expression t op ops)) (rewrite_spec_operands N rest)
end

mutual
/-- Item (a) of the node-wise description read on a tree as it stands: every
swizzle of the tree whose operand is vector-typed has the mask (0, 1, 2, 3)
with `N` components. -/
def vector_swizzles_have_mask (N : Nat) : ir_rvalue → Bool
  | .deref _ => true
  | .swizzle val m _ =>
      (!val.type.is_vector || decide (m = ⟨0, 1, 2, 3, N⟩)) && vector_swizzles_have_mask N val
  | .expression _ _ ops => vector_swizzles_have_mask_operands N ops
/-- Item (a) on every operand of an operand array. -/
def vector_swizzles_have_mask_operands (N : Nat) : ir_operands → Bool
  | .nil => true
  | .cons o rest => vector_swizzles_have_mask N o && vector_swizzles_have_mask_operands N rest
end

/-! ## Concrete statements -/

/-- Operation code standing for `log2`. -/
def ir_unop_log2 : Nat := 7

/-- A `vec4` source variable `v0`. -/
def v0 : ir_variable := ⟨0, ⟨0, 4⟩⟩

/-- A `vec4` destination variable `r1`. -/
def r1 : ir_variable := ⟨1, ⟨0, 4⟩⟩

/-- A scalar variable `c` used as a guard. -/
def c2 : ir_variable := ⟨2, ⟨1, 1⟩⟩

/-- A scalar variable `s3`. -/
def s3 : ir_variable := ⟨3, ⟨0, 1⟩⟩

/-- A second `vec4` destination variable `r4`. -/
def r4 : ir_variable := ⟨4, ⟨0, 4⟩⟩

/-- Operation code standing for `add`. -/
def ir_binop_add : Nat := 20

/-- The statement `r1.<i> = s3`, whose right-hand side has no swizzle. -/
def plain_assign (i : Nat) : ir_assignment :=
  { lhs := r1, rhs := .deref s3, condition := none, write_mask := 1 <<< i }

/-- The visitor on the one-statement list `r1.x = log2(v0.x)` before the
traversal. -/
def fresh_visitor : ir_vectorize_visitor :=
  ir_vectorize_visitor.new [some (unary_assign r1 0 0 ir_unop_log2 v0 0)]

/-- The visitor `fresh_visitor` after `visit_enter` of its statement. -/
def entered_visitor : ir_vectorize_visitor :=
  { fresh_visitor with current_assignment := some 0 }

/-- The tree `(swiz x (expression float log2 (swiz x (var_ref v0))))`: a swizzle
whose operand is a scalar expression. -/
def nested_rhs : ir_rvalue :=
  .swizzle (.expression ⟨0, 1⟩ ir_unop_log2 (.cons (component v0 0) .nil)) ⟨0, 0, 0, 0, 1⟩ ⟨0, 1⟩

/-- The statement `r1.x = (log2(v0.x)).x`. -/
def nested_assign : ir_assignment :=
  { lhs := r1, rhs := nested_rhs, condition := none, write_mask := WRITEMASK_X }

/-- The statement `r1.<i> = log2(v0.<j>)`. -/
def log2_assign (i j : Nat) : ir_assignment := unary_assign r1 i 0 ir_unop_log2 v0 j

/-- The vector statement `r1.<mask> = log2(v0.<first N components>)` with an
expression of width `N`. -/
def log2_vector (N mask : Nat) : ir_assignment :=
  { lhs := r1
    rhs := .expression ⟨0, N⟩ ir_unop_log2
      (.cons (.swizzle (.deref v0) ⟨0, 1, 2, 3, N⟩ ⟨0, N⟩) .nil)
    condition := none
    write_mask := mask }

/-- A meaning of the operations under which every unary operation adds 100 to
its argument. -/
def sample_sem : Nat → List Int → Int := fun _ args => args.headD 0 + 100

/-- A store in which `v0 = (10, 20, 30, 40)` and every other variable is zero. -/
def sample_store : store := fun x => if x = v0 then [10, 20, 30, 40] else [0, 0, 0, 0]

/-! ## Unfolding of the tree walk -/

theorem rewrite_operand_depth (o : ir_rvalue) (mask : ir_swizzle_mask) :
    (rewrite_operand o mask).depth ≤ max o.depth 1 := by
  cases o with
  | deref var =>
      simp only [rewrite_operand]
      split <;> simp [ir_swizzle.new, ir_rvalue.depth]
  | swizzle val m t => simp [rewrite_operand]
  | expression t op ops => simp [rewrite_operand]

theorem rewrite_operands_depth (mask : ir_swizzle_mask) :
    ∀ ops : ir_operands, (rewrite_operands ops mask).depth ≤ max ops.depth 1
  | .nil => by simp [rewrite_operands, ir_operands.depth]
  | .cons o rest => by
      have h := rewrite_operand_depth o mask
      have ih := rewrite_operands_depth mask rest
      simp only [rewrite_operands, ir_operands.depth]
      omega

theorem operands_map_congr (f g : ir_rvalue → ir_rvalue) :
    ∀ ops : ir_operands, (∀ o, o.depth ≤ ops.depth → f o = g o) → ops.map f = ops.map g
  | .nil, _ => rfl
  | .cons o rest, h => by
      simp only [ir_operands.map]
      rw [h o (by simp [ir_operands.depth]),
        operands_map_congr f g rest (fun o' ho' => h o' (by simp only [ir_operands.depth]; omega))]

theorem visit_tree_fuel_eq (mask : ir_swizzle_mask) :
    ∀ (n : Nat) (ir : ir_rvalue), ir.depth < n → ∀ n' : Nat, ir.depth < n' →
      visit_tree_fuel mask n ir = visit_tree_fuel mask n' ir
  | 0, ir, h, _, _ => by omega
  | n + 1, ir, h, 0, h' => by omega
  | n + 1, ir, h, n' + 1, h' => by
      cases ir with
      | deref var => simp [visit_tree_fuel, rewrite_swizzle]
      | swizzle val m t =>
          rw [visit_tree_fuel, visit_tree_fuel]
          simp only [rewrite_swizzle, ir_rvalue.depth] at h h' ⊢
          rw [visit_tree_fuel_eq mask n val (by omega) n' (by omega)]
      | expression t op ops =>
          rw [visit_tree_fuel, visit_tree_fuel]
          simp only [rewrite_swizzle, ir_rvalue.depth] at h h' ⊢
          have hd := rewrite_operands_depth mask ops
          rw [operands_map_congr (visit_tree_fuel mask n) (visit_tree_fuel mask n')
            (rewrite_operands ops mask)
            (fun o ho => visit_tree_fuel_eq mask n o (by omega) n' (by omega))]

@[simp] theorem visit_tree_deref (var : ir_variable) (mask : ir_swizzle_mask) :
    visit_tree (.deref var) mask = .deref var := by
  simp [visit_tree, visit_tree_fuel, rewrite_swizzle]

@[simp] theorem visit_tree_swizzle (val : ir_rvalue) (m mask : ir_swizzle_mask) (t : glsl_type) :
    visit_tree (.swizzle val m t) mask =
      .swizzle (visit_tree val mask) (if val.type.is_vector then mask else m)
        (glsl_type.get_instance t.base_type mask.num_components) := by
  have e : visit_tree (.swizzle val m t) mask =
      visit_tree_fuel mask (val.depth + 1 + 1) (.swizzle val m t) := rfl
  rw [e, visit_tree_fuel]
  simp only [rewrite_swizzle]
  rfl

@[simp] theorem visit_tree_expression (t : glsl_type) (op : Nat) (ops : ir_operands)
    (mask : ir_swizzle_mask) :
    visit_tree (.expression t op ops) mask =
      .expression (glsl_type.get_instance t.base_type mask.num_components) op
        (visit_operands (rewrite_operands ops mask) mask) := by
  have e : visit_tree (.expression t op ops) mask =
      visit_tree_fuel mask (ops.depth + 2 + 1) (.expression t op ops) := rfl
  rw [e, visit_tree_fuel]
  simp only [rewrite_swizzle, visit_operands]
  have hd := rewrite_operands_depth mask ops
  show ir_rvalue.expression _ op (ir_operands.map (visit_tree_fuel mask (ops.depth + 2)) _) = _
  rw [operands_map_congr (visit_tree_fuel mask (ops.depth + 2))
    (fun o => visit_tree_fuel mask (o.depth + 1) o) (rewrite_operands ops mask)
    (fun o ho => visit_tree_fuel_eq mask _ o (by omega) _ (by omega))]
  rfl

@[simp] theorem visit_operands_nil (mask : ir_swizzle_mask) :
    visit_operands .nil mask = .nil := rfl

@[simp] theorem visit_operands_cons (o : ir_rvalue) (rest : ir_operands) (mask : ir_swizzle_mask) :
    visit_operands (.cons o rest) mask = .cons (visit_tree o mask) (visit_operands rest mask) :=
  rfl

/-! ## The statement list -/

theorem node_eq_some {l : exec_list} {p : Nat} {a : ir_assignment} :
    node l p = some a ↔ l[p]? = some (some a) := by
  unfold node
  cases h : l[p]? with
  | none => simp
  | some o => cases o <;> simp

theorem update_length (l : exec_list) (p : Nat) (f : ir_assignment → ir_assignment) :
    (update l p f).length = l.length := by
  unfold update
  split <;> simp

theorem update_getElem? (l : exec_list) (p j : Nat) (f : ir_assignment → ir_assignment) :
    (update l p f)[j]? = if j = p then (l[j]?).map (Option.map f) else l[j]? := by
  unfold update
  split
  · rename_i a h
    rw [node_eq_some] at h
    by_cases hj : j = p
    · subst hj
      have hlt : j < l.length := by
        rcases Nat.lt_or_ge j l.length with h1 | h1
        · exact h1
        · rw [List.getElem?_eq_none h1] at h; cases h
      simp [List.getElem?_set, hlt, h]
    · have hj2 : p ≠ j := fun e => hj e.symm
      simp [List.getElem?_set, hj, hj2]
  · rename_i h
    by_cases hj : j = p
    · subst hj
      unfold node at h
      cases h2 : l[j]? with
      | none => simp
      | some o =>
          cases o with
          | none => simp
          | some a => rw [h2] at h; simp at h
    · simp [hj]

theorem remove_length (l : exec_list) (p : Nat) : (remove l p).length = l.length := by
  simp [remove]

theorem remove_getElem? (l : exec_list) (p j : Nat) :
    (remove l p)[j]? = if j = p then (l[j]?).map (fun _ => none) else l[j]? := by
  unfold remove
  by_cases hj : j = p
  · subst hj
    rcases Nat.lt_or_ge j l.length with h1 | h1
    · simp [List.getElem?_set, h1]
    · have h2 : (l.set j none).length ≤ j := by simpa using h1
      rw [List.getElem?_eq_none h1, List.getElem?_eq_none h2]; simp
  · have hj2 : p ≠ j := fun e => hj e.symm
    simp [List.getElem?_set, hj, hj2]

theorem try_vectorize_slot_length (S : List (Option Nat)) (k : Nat) (l : exec_list) (i : Nat) :
    (try_vectorize_slot S k l i).length = l.length := by
  unfold try_vectorize_slot
  split
  · split <;> simp [remove_length, update_length]
  · rfl

theorem try_vectorize_slot_last (S : List (Option Nat)) (k : Nat) (l : exec_list) (i : Nat) :
    (try_vectorize_slot S k l i)[k]? =
      (l[k]?).map (Option.map fun a =>
        { a with write_mask := if (S.getD i none).isSome then a.write_mask ||| (1 <<< i)
                               else a.write_mask }) := by
  unfold try_vectorize_slot
  cases h : S.getD i none with
  | none =>
      simp only [Option.isSome_none, Bool.false_eq_true, if_false]
      cases l[k]? with
      | none => rfl
      | some o => cases o <;> rfl
  | some p =>
      simp only [Option.isSome_some, if_true]
      by_cases hp : p = k
      · simp [hp, update_getElem?]
      · have hk : k ≠ p := fun e => hp e.symm
        simp [hp, hk, remove_getElem?, update_getElem?]

theorem try_vectorize_slot_other (S : List (Option Nat)) (k : Nat) (l : exec_list) (i j : Nat)
    (hj : j ≠ k) :
    (try_vectorize_slot S k l i)[j]? =
      if S.getD i none = some j then (l[j]?).map (fun _ => none) else l[j]? := by
  unfold try_vectorize_slot
  cases h : S.getD i none with
  | none => simp
  | some p =>
      by_cases hp : p = k
      · subst hp
        have : ¬ p = j := fun e => hj e.symm
        simp [update_getElem?, hj, this]
      · by_cases hpj : p = j
        · subst hpj
          simp [hp, remove_getElem?, update_getElem?]
        · have : ¬ j = p := fun e => hpj e.symm
          simp [hp, hpj, this, remove_getElem?, update_getElem?, hj]

theorem fold_slots_length (S : List (Option Nat)) (k : Nat) :
    ∀ (is : List Nat) (l : exec_list),
      (is.foldl (try_vectorize_slot S k) l).length = l.length
  | [], l => rfl
  | i :: is, l => by
      simp only [List.foldl_cons]
      rw [fold_slots_length S k is, try_vectorize_slot_length]

theorem fold_slots_last (S : List (Option Nat)) (k : Nat) :
    ∀ (is : List Nat) (l : exec_list),
      (is.foldl (try_vectorize_slot S k) l)[k]? =
        (l[k]?).map (Option.map fun a => { a with write_mask := slot_bits S is a.write_mask })
  | [], l => by
      simp only [List.foldl_nil, slot_bits]
      cases l[k]? with
      | none => rfl
      | some o => cases o <;> rfl
  | i :: is, l => by
      simp only [List.foldl_cons, slot_bits]
      rw [fold_slots_last S k is, try_vectorize_slot_last]
      cases l[k]? with
      | none => rfl
      | some o => cases o <;> simp [slot_bits]

theorem fold_slots_kept (S : List (Option Nat)) (k j : Nat) (hj : j ≠ k) :
    ∀ (is : List Nat) (l : exec_list), (∀ i ∈ is, S.getD i none ≠ some j) →
      (is.foldl (try_vectorize_slot S k) l)[j]? = l[j]?
  | [], l, _ => rfl
  | i :: is, l, hall => by
      simp only [List.foldl_cons]
      rw [fold_slots_kept S k j hj is _ (fun i' hi' => hall i' (List.mem_cons_of_mem _ hi')),
        try_vectorize_slot_other S k l i j hj]
      rw [if_neg (hall i (List.mem_cons_self _ _))]

theorem fold_slots_removed (S : List (Option Nat)) (k j : Nat) (hj : j ≠ k) :
    ∀ (is : List Nat) (l : exec_list), (∃ i ∈ is, S.getD i none = some j) →
      (is.foldl (try_vectorize_slot S k) l)[j]? = (l[j]?).map (fun _ => none)
  | [], l, h => by simp at h
  | i :: is, l, h => by
      simp only [List.foldl_cons]
      by_cases hrest : ∃ i' ∈ is, S.getD i' none = some j
      · rw [fold_slots_removed S k j hj is _ hrest, try_vectorize_slot_other S k l i j hj]
        split
        · cases l[j]? <;> rfl
        · rfl
      · have hi : S.getD i none = some j := by
          rcases h with ⟨i', hi', e⟩
          rcases List.mem_cons.mp hi' with rfl | hmem
          · exact e
          · exact absurd ⟨i', hmem, e⟩ hrest
        rw [fold_slots_kept S k j hj is _ (fun i' hi' e => hrest ⟨i', hi', e⟩),
          try_vectorize_slot_other S k l i j hj, if_pos hi]

/-! ## `try_vectorize` -/

theorem try_vectorize_assignment (v : ir_vectorize_visitor) :
    (try_vectorize v).assignment = [none, none, none, none] := by
  unfold try_vectorize; split <;> [split; skip] <;> simp [clear]

theorem try_vectorize_current (v : ir_vectorize_visitor) :
    (try_vectorize v).current_assignment = none := by
  unfold try_vectorize; split <;> [split; skip] <;> simp [clear]

theorem try_vectorize_last (v : ir_vectorize_visitor) :
    (try_vectorize v).last_assignment = none := by
  unfold try_vectorize; split <;> [split; skip] <;> simp [clear]

theorem try_vectorize_channels (v : ir_vectorize_visitor) :
    (try_vectorize v).channels = 0 := by
  unfold try_vectorize; split <;> [split; skip] <;> simp [clear]

theorem try_vectorize_has_swizzle (v : ir_vectorize_visitor) :
    (try_vectorize v).has_swizzle = false := by
  unfold try_vectorize; split <;> [split; skip] <;> simp [clear]

theorem try_vectorize_length (v : ir_vectorize_visitor) :
    (try_vectorize v).instructions.length = v.instructions.length := by
  unfold try_vectorize
  split
  · split
    · simp only [clear]
      rw [fold_slots_length, update_length, update_length]
    · rfl
  · rfl

theorem try_vectorize_noop (v : ir_vectorize_visitor)
    (h : v.last_assignment = none ∨ v.channels ≤ 1) :
    (try_vectorize v).instructions = v.instructions ∧
      (try_vectorize v).progress = v.progress := by
  unfold try_vectorize
  split
  · split
    · rename_i k hk hc
      rcases h with h | h
      · rw [h] at hk; cases hk
      · omega
    · simp [clear]
  · simp [clear]

theorem try_vectorize_progress (v : ir_vectorize_visitor) (k : Nat)
    (hk : v.last_assignment = some k) (hc : 1 < v.channels) :
    (try_vectorize v).progress = true := by
  unfold try_vectorize
  simp [hk, hc, clear]

theorem try_vectorize_anchor (v : ir_vectorize_visitor) (k : Nat)
    (hk : v.last_assignment = some k) (hc : 1 < v.channels) :
    (try_vectorize v).instructions[k]? =
      (v.instructions[k]?).map (Option.map fun a =>
        rewritten a v.channels (slot_bits v.assignment [0, 1, 2, 3] 0)) := by
  unfold try_vectorize
  simp only [hk, hc, if_true, clear]
  rw [fold_slots_last, update_getElem?, update_getElem?]
  simp only [if_true]
  cases v.instructions[k]? with
  | none => rfl
  | some o => cases o <;> simp [rewritten]

theorem try_vectorize_removed (v : ir_vectorize_visitor) (k j : Nat)
    (hk : v.last_assignment = some k) (hc : 1 < v.channels) (hj : j ≠ k)
    (hs : ∃ i ∈ [0, 1, 2, 3], v.assignment.getD i none = some j) :
    (try_vectorize v).instructions[j]? = (v.instructions[j]?).map (fun _ => none) := by
  unfold try_vectorize
  simp only [hk, hc, if_true, clear]
  rw [fold_slots_removed _ k j hj _ _ hs, update_getElem?, update_getElem?]
  simp [hj]

theorem try_vectorize_kept (v : ir_vectorize_visitor) (k j : Nat)
    (hk : v.last_assignment = some k) (hj : j ≠ k)
    (hs : ∀ i ∈ [0, 1, 2, 3], v.assignment.getD i none ≠ some j) :
    (try_vectorize v).instructions[j]? = v.instructions[j]? := by
  by_cases hc : 1 < v.channels
  · unfold try_vectorize
    simp only [hk, hc, if_true, clear]
    rw [fold_slots_kept _ k j hj _ _ hs, update_getElem?, update_getElem?]
    simp [hj]
  · rw [(try_vectorize_noop v (Or.inr (by omega))).1]

/-! ## One statement -/

theorem matches_to_swizzle {w : Nat} {s : ir_swizzle_mask}
    (h : write_mask_matches_swizzle w s = true) :
    write_mask_to_swizzle w = some s.x ∧ s.x < 4 ∧ w = 1 <<< s.x := by
  simp only [write_mask_matches_swizzle, WRITEMASK_X, WRITEMASK_Y, WRITEMASK_Z, WRITEMASK_W,
    SWIZZLE_X, SWIZZLE_Y, SWIZZLE_Z, SWIZZLE_W, Bool.or_eq_true, Bool.and_eq_true,
    beq_iff_eq] at h
  rcases h with ((⟨h1, h2⟩ | ⟨h1, h2⟩) | ⟨h1, h2⟩) | ⟨h1, h2⟩ <;>
    subst h1 <;> rw [h2] <;> decide

theorem commits_slot {ir : ir_assignment} (h : commits ir = true) :
    write_mask_to_swizzle ir.write_mask = some (slot_of ir) ∧ slot_of ir < 4 ∧
      ir.write_mask = 1 <<< slot_of ir := by
  simp only [commits, Bool.and_eq_true, Bool.not_eq_true', List.all_eq_true] at h
  cases hs : ir.rhs.swizzles with
  | nil => rw [hs] at h; simp at h
  | cons s rest =>
      have hm := matches_to_swizzle (h.2 s (by rw [hs]; exact List.mem_cons_self _ _))
      simp only [slot_of, hm.1, Option.getD_some]
      exact ⟨trivial, hm.2.1, hm.2.2⟩

theorem visit_swizzles_none (sw : List ir_swizzle_mask) (v : ir_vectorize_visitor)
    (h : v.current_assignment = none) : visit_swizzles sw v = some v := by
  induction sw with
  | nil => rfl
  | cons s rest ih => simp [visit_swizzles, visit_enter_swizzle, h, ih]

theorem visit_swizzles_some (p : Nat) (a : ir_assignment) :
    ∀ (sw : List ir_swizzle_mask) (v : ir_vectorize_visitor),
      v.current_assignment = some p → node v.instructions p = some a →
      ∃ h' : Bool, visit_swizzles sw v =
        some (if sw.all (write_mask_matches_swizzle a.write_mask) = true then
                { v with has_swizzle := v.has_swizzle || !sw.isEmpty }
              else { v with current_assignment := none, has_swizzle := h' })
  | [], v, hc, hn => ⟨false, by simp [visit_swizzles]⟩
  | s :: rest, v, hc, hn => by
      by_cases hm : write_mask_matches_swizzle a.write_mask s = true
      · have he : visit_enter_swizzle v s = some { v with has_swizzle := true } := by
          simp [visit_enter_swizzle, hc, hn, hm]
        obtain ⟨h', ih⟩ := visit_swizzles_some p a rest { v with has_swizzle := true } hc hn
        refine ⟨h', ?_⟩
        simp only [visit_swizzles, he, ih, List.all_cons, hm, Bool.true_and]
        split <;> simp
      · have he : visit_enter_swizzle v s = some { v with current_assignment := none } := by
          simp [visit_enter_swizzle, hc, hn, hm]
        refine ⟨v.has_swizzle, ?_⟩
        simp only [visit_swizzles, he]
        rw [visit_swizzles_none rest { v with current_assignment := none } rfl]
        simp [hm]

theorem accept_eq (v : ir_vectorize_visitor) (p : Nat) (ir : ir_assignment)
    (hnode : node v.instructions p = some ir) (hhs : v.has_swizzle = false)
    (hlast : ∀ q, v.last_assignment = some q → ∃ la, node v.instructions q = some la)
    (hkeep : incompatible v.channels (v.last_assignment.bind (node v.instructions)) ir = true →
      node (try_vectorize v).instructions p = some ir) :
    accept v p =
      some (if commits ir = true then
              commit (if incompatible v.channels (v.last_assignment.bind (node v.instructions)) ir
                      then try_vectorize v else v) p (slot_of ir)
            else
              skip (if incompatible v.channels (v.last_assignment.bind (node v.instructions)) ir
                    then try_vectorize v else v)) := by
  have henter : visit_enter_assignment v p ir =
      some { (if incompatible v.channels (v.last_assignment.bind (node v.instructions)) ir
              then try_vectorize v else v) with current_assignment := some p } := by
    unfold visit_enter_assignment
    cases hl : v.last_assignment with
    | none => simp
    | some q =>
        obtain ⟨la, hla⟩ := hlast q hl
        simp [hla]
  generalize hv1 : (if incompatible v.channels (v.last_assignment.bind (node v.instructions)) ir
              then try_vectorize v else v) = v1 at henter ⊢
  have hhs1 : v1.has_swizzle = false := by
    rw [← hv1]; split
    · exact try_vectorize_has_swizzle v
    · exact hhs
  have hnode1 : node v1.instructions p = some ir := by
    rw [← hv1]; split
    · rename_i hi; exact hkeep hi
    · exact hnode
  obtain ⟨h', hsw⟩ := visit_swizzles_some p ir ir.rhs.swizzles
    { v1 with current_assignment := some p } rfl hnode1
  unfold accept
  rw [hnode]
  simp only [henter, hsw]
  by_cases hall : ir.rhs.swizzles.all (write_mask_matches_swizzle ir.write_mask) = true
  · simp only [hall, if_true]
    cases hemp : ir.rhs.swizzles.isEmpty with
    | true =>
        have hc : commits ir = false := by simp [commits, hemp]
        simp [hc, visit_leave_assignment, hhs1, skip]
    | false =>
        have hc : commits ir = true := by simp [commits, hemp, hall]
        have hslot := commits_slot hc
        simp [hc, visit_leave_assignment, hhs1, hnode1, hslot.1, commit]
  · have hc : commits ir = false := by simp [commits, hall]
    simp only [hall, if_false]
    simp [hc, visit_leave_assignment, skip]

theorem accept_none (v : ir_vectorize_visitor) (p : Nat) (h : node v.instructions p = none) :
    accept v p = some v := by
  unfold accept; rw [h]

theorem visit_list_append (xs ys : List Nat) (v : ir_vectorize_visitor) :
    visit_list (xs ++ ys) v = (visit_list xs v).bind (visit_list ys) := by
  induction xs generalizing v with
  | nil => rfl
  | cons x xs ih =>
      simp only [List.cons_append, visit_list]
      cases accept v x with
      | none => rfl
      | some v1 => exact ih v1

theorem state_after_succ (l : List ir_assignment) (m : Nat) :
    state_after l (m + 1) = (state_after l m).bind (fun v => accept v m) := by
  unfold state_after
  rw [List.range_succ, visit_list_append]
  congr 1
  funext v
  simp only [visit_list]
  cases accept v m <;> rfl

theorem open_run_succ (l : List ir_assignment) (m : Nat) :
    open_run l (m + 1) = run_step l (open_run l m) m := by
  unfold open_run
  rw [List.range_succ, List.foldl_append]
  rfl

theorem accept_join (v : ir_vectorize_visitor) (p : Nat) (ir : ir_assignment)
    (hnode : node v.instructions p = some ir) (hhs : v.has_swizzle = false)
    (hlast : ∀ q, v.last_assignment = some q → ∃ la, node v.instructions q = some la)
    (hinc : incompatible v.channels (v.last_assignment.bind (node v.instructions)) ir = false)
    (hc : commits ir = true) :
    accept v p = some (commit v p (slot_of ir)) := by
  rw [accept_eq v p ir hnode hhs hlast (fun h => by rw [hinc] at h; cases h), hinc, hc]
  rfl

theorem accept_pass (v : ir_vectorize_visitor) (p : Nat) (ir : ir_assignment)
    (hnode : node v.instructions p = some ir) (hhs : v.has_swizzle = false)
    (hlast : ∀ q, v.last_assignment = some q → ∃ la, node v.instructions q = some la)
    (hinc : incompatible v.channels (v.last_assignment.bind (node v.instructions)) ir = false)
    (hc : commits ir = false) :
    accept v p = some (skip v) := by
  rw [accept_eq v p ir hnode hhs hlast (fun h => by rw [hinc] at h; cases h), hinc, hc]
  rfl

theorem accept_seal_join (v : ir_vectorize_visitor) (p : Nat) (ir : ir_assignment)
    (hnode : node v.instructions p = some ir) (hhs : v.has_swizzle = false)
    (hlast : ∀ q, v.last_assignment = some q → ∃ la, node v.instructions q = some la)
    (hinc : incompatible v.channels (v.last_assignment.bind (node v.instructions)) ir = true)
    (hkeep : node (try_vectorize v).instructions p = some ir)
    (hc : commits ir = true) :
    accept v p = some (commit (try_vectorize v) p (slot_of ir)) := by
  rw [accept_eq v p ir hnode hhs hlast (fun _ => hkeep), hinc, hc]
  rfl

theorem accept_seal_pass (v : ir_vectorize_visitor) (p : Nat) (ir : ir_assignment)
    (hnode : node v.instructions p = some ir) (hhs : v.has_swizzle = false)
    (hlast : ∀ q, v.last_assignment = some q → ∃ la, node v.instructions q = some la)
    (hinc : incompatible v.channels (v.last_assignment.bind (node v.instructions)) ir = true)
    (hkeep : node (try_vectorize v).instructions p = some ir)
    (hc : commits ir = false) :
    accept v p = some (skip (try_vectorize v)) := by
  rw [accept_eq v p ir hnode hhs hlast (fun _ => hkeep), hinc, hc]
  rfl

theorem do_vectorize_eq (l : List ir_assignment) :
    do_vectorize l = (state_after l l.length).map
      (fun v => (remaining (try_vectorize v).instructions, (try_vectorize v).progress)) := by
  unfold do_vectorize run state_after
  simp only [ir_vectorize_visitor.new, List.length_map]
  cases visit_list (List.range l.length) _ <;> rfl

theorem state_after_zero (l : List ir_assignment) :
    state_after l 0 = some (ir_vectorize_visitor.new (l.map some)) := rfl

theorem state_after_one (l : List ir_assignment) :
    state_after l 1 = accept (ir_vectorize_visitor.new (l.map some)) 0 := by
  have h := state_after_succ l 0
  rewrite [state_after_zero] at h
  exact h

theorem pair_merges (a0 a1 : ir_assignment)
    (hc0 : commits a0 = true) (hc1 : commits a1 = true)
    (hs0 : slot_of a0 = 0) (hs1 : slot_of a1 = 1)
    (hi0 : incompatible 0 none a0 = false) (hi1 : incompatible 1 (some a0) a1 = false) :
    do_vectorize [a0, a1] = some ([rewritten a1 2 3], true) := by
  have h1 : state_after [a0, a1] 1 = some (commit (ir_vectorize_visitor.new [some a0, some a1]) 0 0) := by
    have h := accept_join (ir_vectorize_visitor.new [some a0, some a1]) 0 a0 rfl rfl
      (fun q hq => by cases hq) hi0 hc0
    rewrite [hs0] at h
    rewrite [state_after_one]
    exact h
  have h2 : state_after [a0, a1] 2 =
      some (commit (commit (ir_vectorize_visitor.new [some a0, some a1]) 0 0) 1 1) := by
    have h := accept_join (commit (ir_vectorize_visitor.new [some a0, some a1]) 0 0) 1 a1 rfl rfl
      (fun q hq => ⟨a0, by cases hq; rfl⟩) hi1 hc1
    rewrite [hs1] at h
    rewrite [state_after_succ [a0, a1] 1, h1]
    exact h
  rewrite [do_vectorize_eq]
  show Option.map _ (state_after [a0, a1] 2) = _
  rewrite [h2]
  have e1 : (try_vectorize (commit (commit (ir_vectorize_visitor.new [some a0, some a1]) 0 0) 1 1)).progress = true := rfl
  have e2 : (try_vectorize (commit (commit (ir_vectorize_visitor.new [some a0, some a1]) 0 0) 1 1)).instructions = [none, some (rewritten a1 2 3)] := by
    simp [try_vectorize, commit, ir_vectorize_visitor.new, clear, try_vectorize_slot, update,
      remove, node, rewritten]
  simp only [Option.map_some', e1, e2, remaining, List.filterMap_cons, List.filterMap_nil, id]

theorem triple_merges (a0 a1 a2 : ir_assignment)
    (hc0 : commits a0 = true) (hc1 : commits a1 = true) (hc2 : commits a2 = true)
    (hs0 : slot_of a0 = 0) (hs1 : slot_of a1 = 1) (hs2 : slot_of a2 = 2)
    (hi0 : incompatible 0 none a0 = false) (hi1 : incompatible 1 (some a0) a1 = false)
    (hi2 : incompatible 2 (some a1) a2 = false) :
    do_vectorize [a0, a1, a2] = some ([rewritten a2 3 7], true) := by
  have h1 : state_after [a0, a1, a2] 1 =
      some (commit (ir_vectorize_visitor.new [some a0, some a1, some a2]) 0 0) := by
    have h := accept_join (ir_vectorize_visitor.new [some a0, some a1, some a2]) 0 a0 rfl rfl
      (fun q hq => by cases hq) hi0 hc0
    rewrite [hs0] at h
    rewrite [state_after_one]
    exact h
  have h2 : state_after [a0, a1, a2] 2 =
      some (commit (commit (ir_vectorize_visitor.new [some a0, some a1, some a2]) 0 0) 1 1) := by
    have h := accept_join (commit (ir_vectorize_visitor.new [some a0, some a1, some a2]) 0 0) 1 a1
      rfl rfl (fun q hq => ⟨a0, by cases hq; rfl⟩) hi1 hc1
    rewrite [hs1] at h
    rewrite [state_after_succ [a0, a1, a2] 1, h1]
    exact h
  have h3 : state_after [a0, a1, a2] 3 =
      some (commit (commit (commit (ir_vectorize_visitor.new [some a0, some a1, some a2]) 0 0) 1 1)
        2 2) := by
    have h := accept_join
      (commit (commit (ir_vectorize_visitor.new [some a0, some a1, some a2]) 0 0) 1 1) 2 a2
      rfl rfl (fun q hq => ⟨a1, by cases hq; rfl⟩) hi2 hc2
    rewrite [hs2] at h
    rewrite [state_after_succ [a0, a1, a2] 2, h2]
    exact h
  rewrite [do_vectorize_eq]
  show Option.map _ (state_after [a0, a1, a2] 3) = _
  rewrite [h3]
  have e1 : (try_vectorize (commit (commit (commit
      (ir_vectorize_visitor.new [some a0, some a1, some a2]) 0 0) 1 1) 2 2)).progress = true := rfl
  have e2 : (try_vectorize (commit (commit (commit
      (ir_vectorize_visitor.new [some a0, some a1, some a2]) 0 0) 1 1) 2 2)).instructions =
      [none, none, some (rewritten a2 3 7)] := by
    simp [try_vectorize, commit, ir_vectorize_visitor.new, clear, try_vectorize_slot, update,
      remove, node, rewritten]
  simp only [Option.map_some', e1, e2, remaining, List.filterMap_cons, List.filterMap_nil, id]

theorem quad_merges (a0 a1 a2 a3 : ir_assignment)
    (hc0 : commits a0 = true) (hc1 : commits a1 = true) (hc2 : commits a2 = true)
    (hc3 : commits a3 = true)
    (hs0 : slot_of a0 = 0) (hs1 : slot_of a1 = 1) (hs2 : slot_of a2 = 2) (hs3 : slot_of a3 = 3)
    (hi0 : incompatible 0 none a0 = false) (hi1 : incompatible 1 (some a0) a1 = false)
    (hi2 : incompatible 2 (some a1) a2 = false) (hi3 : incompatible 3 (some a2) a3 = false) :
    do_vectorize [a0, a1, a2, a3] = some ([rewritten a3 4 15], true) := by
  have h1 : state_after [a0, a1, a2, a3] 1 =
      some (commit (ir_vectorize_visitor.new [some a0, some a1, some a2, some a3]) 0 0) := by
    have h := accept_join (ir_vectorize_visitor.new [some a0, some a1, some a2, some a3]) 0 a0
      rfl rfl (fun q hq => by cases hq) hi0 hc0
    rewrite [hs0] at h
    rewrite [state_after_one]
    exact h
  have h2 : state_after [a0, a1, a2, a3] 2 =
      some (commit (commit (ir_vectorize_visitor.new [some a0, some a1, some a2, some a3]) 0 0)
        1 1) := by
    have h := accept_join
      (commit (ir_vectorize_visitor.new [some a0, some a1, some a2, some a3]) 0 0) 1 a1
      rfl rfl (fun q hq => ⟨a0, by cases hq; rfl⟩) hi1 hc1
    rewrite [hs1] at h
    rewrite [state_after_succ [a0, a1, a2, a3] 1, h1]
    exact h
  have h3 : state_after [a0, a1, a2, a3] 3 =
      some (commit (commit (commit
        (ir_vectorize_visitor.new [some a0, some a1, some a2, some a3]) 0 0) 1 1) 2 2) := by
    have h := accept_join
      (commit (commit (ir_vectorize_visitor.new [some a0, some a1, some a2, some a3]) 0 0) 1 1)
      2 a2 rfl rfl (fun q hq => ⟨a1, by cases hq; rfl⟩) hi2 hc2
    rewrite [hs2] at h
    rewrite [state_after_succ [a0, a1, a2, a3] 2, h2]
    exact h
  have h4 : state_after [a0, a1, a2, a3] 4 =
      some (commit (commit (commit (commit
        (ir_vectorize_visitor.new [some a0, some a1, some a2, some a3]) 0 0) 1 1) 2 2) 3 3) := by
    have h := accept_join
      (commit (commit (commit
        (ir_vectorize_visitor.new [some a0, some a1, some a2, some a3]) 0 0) 1 1) 2 2)
      3 a3 rfl rfl (fun q hq => ⟨a2, by cases hq; rfl⟩) hi3 hc3
    rewrite [hs3] at h
    rewrite [state_after_succ [a0, a1, a2, a3] 3, h3]
    exact h
  rewrite [do_vectorize_eq]
  show Option.map _ (state_after [a0, a1, a2, a3] 4) = _
  rewrite [h4]
  have e1 : (try_vectorize (commit (commit (commit (commit
      (ir_vectorize_visitor.new [some a0, some a1, some a2, some a3]) 0 0) 1 1) 2 2)
      3 3)).progress = true := rfl
  have e2 : (try_vectorize (commit (commit (commit (commit
      (ir_vectorize_visitor.new [some a0, some a1, some a2, some a3]) 0 0) 1 1) 2 2)
      3 3)).instructions = [none, none, none, some (rewritten a3 4 15)] := by
    simp [try_vectorize, commit, ir_vectorize_visitor.new, clear, try_vectorize_slot, update,
      remove, node, rewritten]
  simp only [Option.map_some', e1, e2, remaining, List.filterMap_cons, List.filterMap_nil, id]

/-! ## Facts about the scenario statements -/

theorem single_channel_shift (i : Nat) (h : i < 4) :
    single_channel_write_mask (1 <<< i) = true := by
  interval_cases i <;> decide

theorem write_mask_to_swizzle_shift (i : Nat) (h : i < 4) :
    write_mask_to_swizzle (1 <<< i) = some i := by
  interval_cases i <;> decide

theorem matches_shift (i : Nat) (h : i < 4) (y z w n : Nat) :
    write_mask_matches_swizzle (1 <<< i) ⟨i, y, z, w, n⟩ = true := by
  interval_cases i <;> rfl

theorem unary_commits (r v : ir_variable) (i b op : Nat) (h : i < 4) :
    commits (unary_assign r i b op v i) = true := by
  simp [commits, unary_assign, component, ir_swizzle.new, ir_rvalue.swizzles,
    ir_operands.swizzles, matches_shift i h]

theorem unary_slot (r v : ir_variable) (i j b op : Nat) (h : i < 4) :
    slot_of (unary_assign r i b op v j) = i := by
  simp [slot_of, unary_assign, write_mask_to_swizzle_shift i h]

theorem unary_first (r v : ir_variable) (i j b op : Nat) (h : i < 4) :
    incompatible 0 none (unary_assign r i b op v j) = false := by
  simp [incompatible, unary_assign, single_channel_shift i h]

theorem unary_next (r v : ir_variable) (ch i j i' j' b op : Nat) (hch : ch < 4) (h : i' < 4) :
    incompatible ch (some (unary_assign r i b op v j)) (unary_assign r i' b op v j') = false := by
  simp [incompatible, unary_assign, single_channel_shift i' h, component, ir_swizzle.new,
    ir_rvalue.equals, ir_operands.equals, ir_rvalue.type, glsl_type.get_instance, hch]

theorem rewritten_unary (r v : ir_variable) (i j b op N w : Nat)
    (hv : v.type.is_vector = true) :
    rewritten (unary_assign r i b op v j) N w =
      { lhs := r
        rhs := .expression ⟨b, N⟩ op
          (.cons (.swizzle (.deref v) ⟨0, 1, 2, 3, N⟩ ⟨v.type.base_type, N⟩) .nil)
        condition := none
        write_mask := w } := by
  simp [rewritten, unary_assign, component, ir_swizzle.new, rewrite_operands, rewrite_operand,
    ir_rvalue.type, glsl_type.get_instance, hv]

theorem binary_commits (r a b : ir_variable) (i t op : Nat) (h : i < 4) :
    commits (binary_assign r i t op a b) = true := by
  simp [commits, binary_assign, component, ir_swizzle.new, ir_rvalue.swizzles,
    ir_operands.swizzles, matches_shift i h]

theorem binary_slot (r a b : ir_variable) (i t op : Nat) (h : i < 4) :
    slot_of (binary_assign r i t op a b) = i := by
  simp [slot_of, binary_assign, write_mask_to_swizzle_shift i h]

theorem binary_first (r a b : ir_variable) (i t op : Nat) (h : i < 4) :
    incompatible 0 none (binary_assign r i t op a b) = false := by
  simp [incompatible, binary_assign, single_channel_shift i h]

theorem binary_next (r a b : ir_variable) (ch i i' t op : Nat) (hch : ch < 4) (h : i' < 4) :
    incompatible ch (some (binary_assign r i t op a b)) (binary_assign r i' t op a b) = false := by
  simp [incompatible, binary_assign, single_channel_shift i' h, component, ir_swizzle.new,
    ir_rvalue.equals, ir_operands.equals, ir_rvalue.type, glsl_type.get_instance, hch]

theorem rewritten_binary (r a b : ir_variable) (i t op N w : Nat)
    (ha : a.type.is_vector = true) (hb : b.type.is_scalar = true) :
    rewritten (binary_assign r i t op a b) N w =
      { lhs := r
        rhs := .expression ⟨t, N⟩ op
          (.cons (.swizzle (.deref a) ⟨0, 1, 2, 3, N⟩ ⟨a.type.base_type, N⟩)
            (.cons (.swizzle (.deref b) ⟨0, 0, 0, 0, N⟩ ⟨b.type.base_type, N⟩) .nil))
        condition := none
        write_mask := w } := by
  have hb2 : b.type.is_vector = false := by
    simp only [glsl_type.is_scalar, decide_eq_true_eq] at hb
    simp [glsl_type.is_vector, hb]
  simp [rewritten, binary_assign, component, ir_swizzle.new, rewrite_operands, rewrite_operand,
    ir_rvalue.type, glsl_type.get_instance, ha, hb, hb2]

theorem first_compatible (A : ir_assignment) (hA : A.condition = none)
    (hsA : single_channel_write_mask A.write_mask = true) :
    incompatible 0 none A = false := by
  simp [incompatible, hA, hsA]

theorem mismatch_incompatible (ch : Nat) (A B : ir_assignment)
    (h : B.lhs ≠ A.lhs ∨ B.rhs.equals A.rhs true = false) :
    incompatible ch (some A) B = true := by
  rcases h with h | h
  · simp [incompatible, h]
  · simp [incompatible, h]

/-! ## Scenarios -/

/-- C2: for N = 2, 3, 4, any unary operation, any vector variable `v` and any
destination `r`, the pass turns the N scalarized statements
`r.<i> = op(v.<i>)` into the single statement that assigns to the N lowest
channels of `r` the width-N operation applied to the swizzle (0,..,N-1) of
`v`, and it reports progress. -/
theorem scalarized_run_is_vectorized (N b op : Nat) (v r : ir_variable)
    (hN : N = 2 ∨ N = 3 ∨ N = 4) (hv : v.type.is_vector = true) :
    do_vectorize (scalarized N b op v r) =
      some ([{ lhs := r
               rhs := .expression ⟨b, N⟩ op
                 (.cons (.swizzle (.deref v) ⟨0, 1, 2, 3, N⟩ ⟨v.type.base_type, N⟩) .nil)
               condition := none
               write_mask := 2 ^ N - 1 }], true) := by
  rcases hN with h | h | h <;> subst h
  · have e := pair_merges (unary_assign r 0 b op v 0) (unary_assign r 1 b op v 1)
      (unary_commits r v 0 b op (by decide)) (unary_commits r v 1 b op (by decide))
      (unary_slot r v 0 0 b op (by decide)) (unary_slot r v 1 1 b op (by decide))
      (unary_first r v 0 0 b op (by decide))
      (unary_next r v 1 0 0 1 1 b op (by decide) (by decide))
    rewrite [rewritten_unary r v 1 1 b op 2 3 hv] at e
    exact e
  · have e := triple_merges (unary_assign r 0 b op v 0) (unary_assign r 1 b op v 1)
      (unary_assign r 2 b op v 2)
      (unary_commits r v 0 b op (by decide)) (unary_commits r v 1 b op (by decide))
      (unary_commits r v 2 b op (by decide))
      (unary_slot r v 0 0 b op (by decide)) (unary_slot r v 1 1 b op (by decide))
      (unary_slot r v 2 2 b op (by decide))
      (unary_first r v 0 0 b op (by decide))
      (unary_next r v 1 0 0 1 1 b op (by decide) (by decide))
      (unary_next r v 2 1 1 2 2 b op (by decide) (by decide))
    rewrite [rewritten_unary r v 2 2 b op 3 7 hv] at e
    exact e
  · have e := quad_merges (unary_assign r 0 b op v 0) (unary_assign r 1 b op v 1)
      (unary_assign r 2 b op v 2) (unary_assign r 3 b op v 3)
      (unary_commits r v 0 b op (by decide)) (unary_commits r v 1 b op (by decide))
      (unary_commits r v 2 b op (by decide)) (unary_commits r v 3 b op (by decide))
      (unary_slot r v 0 0 b op (by decide)) (unary_slot r v 1 1 b op (by decide))
      (unary_slot r v 2 2 b op (by decide)) (unary_slot r v 3 3 b op (by decide))
      (unary_first r v 0 0 b op (by decide))
      (unary_next r v 1 0 0 1 1 b op (by decide) (by decide))
      (unary_next r v 2 1 1 2 2 b op (by decide) (by decide))
      (unary_next r v 3 2 2 3 3 b op (by decide) (by decide))
    rewrite [rewritten_unary r v 3 3 b op 4 15 hv] at e
    exact e

/-- C3: scalar broadcast.  For any binary operation, vector variable `a`,
scalar variable `b` and destination `r`, the pass turns
`r.x = op(a.x, b); r.y = op(a.y, b)` into the single statement
`r.xy = op(a.xy, b.xx)`: the expression has width 2, the swizzle over `a` has
mask (x, y), and `b` is wrapped in a new width-2 swizzle replicating
component 0; the pass reports progress. -/
theorem scalar_operand_is_broadcast (t op : Nat) (a b r : ir_variable)
    (ha : a.type.is_vector = true) (hb : b.type.is_scalar = true) :
    do_vectorize [binary_assign r 0 t op a b, binary_assign r 1 t op a b] =
      some ([{ lhs := r
               rhs := .expression ⟨t, 2⟩ op
                 (.cons (.swizzle (.deref a) ⟨0, 1, 2, 3, 2⟩ ⟨a.type.base_type, 2⟩)
                   (.cons (.swizzle (.deref b) ⟨0, 0, 0, 0, 2⟩ ⟨b.type.base_type, 2⟩) .nil))
               condition := none
               write_mask := 3 }], true) := by
  have e := pair_merges (binary_assign r 0 t op a b) (binary_assign r 1 t op a b)
    (binary_commits r a b 0 t op (by decide)) (binary_commits r a b 1 t op (by decide))
    (binary_slot r a b 0 t op (by decide)) (binary_slot r a b 1 t op (by decide))
    (binary_first r a b 0 t op (by decide))
    (binary_next r a b 1 0 1 t op (by decide) (by decide))
  rewrite [rewritten_binary r a b 1 t op 2 3 ha hb] at e
  exact e

/-- C4: incompatible pairs are not rewritten.  For two unguarded
single-channel assignments `A; B` such that the destination of `B` differs from
that of `A`, or the right-hand side of `B` is not equal to that of `A` modulo
swizzle, the pass returns false and leaves both statements unchanged. -/
theorem incompatible_pair_unchanged (A B : ir_assignment)
    (hA : A.condition = none) (hB : B.condition = none)
    (hsA : single_channel_write_mask A.write_mask = true)
    (hsB : single_channel_write_mask B.write_mask = true)
    (h : B.lhs ≠ A.lhs ∨ B.rhs.equals A.rhs true = false) :
    do_vectorize [A, B] = some ([A, B], false) := by
  have hfinal : ∀ v : ir_vectorize_visitor, state_after [A, B] 2 = some v →
      v.channels ≤ 1 → v.instructions = [some A, some B] → v.progress = false →
      do_vectorize [A, B] = some ([A, B], false) := by
    intro v hv hch hins hpr
    rewrite [do_vectorize_eq]
    show Option.map _ (state_after [A, B] 2) = _
    rewrite [hv]
    have hn := try_vectorize_noop v (Or.inr hch)
    simp only [Option.map_some', hn.1, hn.2, hins, hpr, remaining, List.filterMap_cons,
      List.filterMap_nil, id]
  have hiA := first_compatible A hA hsA
  have hiB := first_compatible B hB hsB
  have hAB := mismatch_incompatible 1 A B h
  cases hcA : commits A with
  | true =>
      have h1 : state_after [A, B] 1 =
          some (commit (ir_vectorize_visitor.new [some A, some B]) 0 (slot_of A)) := by
        rewrite [state_after_one]
        exact accept_join (ir_vectorize_visitor.new [some A, some B]) 0 A rfl rfl
          (fun q hq => by cases hq) hiA hcA
      have hn := try_vectorize_noop
        (commit (ir_vectorize_visitor.new [some A, some B]) 0 (slot_of A)) (Or.inr (Nat.le_refl 1))
      have hch := try_vectorize_channels
        (commit (ir_vectorize_visitor.new [some A, some B]) 0 (slot_of A))
      have hkeep : node (try_vectorize
          (commit (ir_vectorize_visitor.new [some A, some B]) 0 (slot_of A))).instructions 1 =
          some B := by rw [hn.1]; rfl
      cases hcB : commits B with
      | true =>
          refine hfinal (commit (try_vectorize
              (commit (ir_vectorize_visitor.new [some A, some B]) 0 (slot_of A))) 1 (slot_of B))
              ?_ ?_ ?_ ?_
          · rewrite [state_after_succ [A, B] 1, h1]
            exact accept_seal_join
              (commit (ir_vectorize_visitor.new [some A, some B]) 0 (slot_of A)) 1 B rfl rfl
              (fun q hq => ⟨A, by cases hq; rfl⟩) hAB hkeep hcB
          · show (try_vectorize _).channels + 1 ≤ 1
            rw [hch]
          · exact hn.1
          · exact hn.2
      | false =>
          refine hfinal (skip (try_vectorize
              (commit (ir_vectorize_visitor.new [some A, some B]) 0 (slot_of A)))) ?_ ?_ ?_ ?_
          · rewrite [state_after_succ [A, B] 1, h1]
            exact accept_seal_pass
              (commit (ir_vectorize_visitor.new [some A, some B]) 0 (slot_of A)) 1 B rfl rfl
              (fun q hq => ⟨A, by cases hq; rfl⟩) hAB hkeep hcB
          · show (try_vectorize _).channels ≤ 1
            rw [hch]; decide
          · exact hn.1
          · exact hn.2
  | false =>
      have h1 : state_after [A, B] 1 = some (skip (ir_vectorize_visitor.new [some A, some B])) := by
        rewrite [state_after_one]
        exact accept_pass (ir_vectorize_visitor.new [some A, some B]) 0 A rfl rfl
          (fun q hq => by cases hq) hiA hcA
      cases hcB : commits B with
      | true =>
          refine hfinal (commit (skip (ir_vectorize_visitor.new [some A, some B])) 1 (slot_of B))
            ?_ ?_ ?_ ?_
          · rewrite [state_after_succ [A, B] 1, h1]
            exact accept_join (skip (ir_vectorize_visitor.new [some A, some B])) 1 B rfl rfl
              (fun q hq => by cases hq) hiB hcB
          · exact Nat.le_refl 1
          · rfl
          · rfl
      | false =>
          refine hfinal (skip (skip (ir_vectorize_visitor.new [some A, some B]))) ?_ ?_ ?_ ?_
          · rewrite [state_after_succ [A, B] 1, h1]
            exact accept_pass (skip (ir_vectorize_visitor.new [some A, some B])) 1 B rfl rfl
              (fun q hq => by cases hq) hiB hcB
          · exact Nat.zero_le 1
          · rfl
          · rfl

/-! ## Equality modulo swizzle is an equivalence -/

mutual
theorem equals_refl : ∀ (a : ir_rvalue) (g : Bool), a.equals a g = true
  | .deref v, g => by simp [ir_rvalue.equals]
  | .swizzle val m t, g => by
      have ih := equals_refl val g
      cases g <;> simp [ir_rvalue.equals, ih]
  | .expression t op ops, g => by
      have ih := operands_equals_refl ops g
      simp [ir_rvalue.equals, ih]
theorem operands_equals_refl : ∀ (a : ir_operands) (g : Bool), a.equals a g = true
  | .nil, g => by simp [ir_operands.equals]
  | .cons o rest, g => by
      simp [ir_operands.equals, equals_refl o g, operands_equals_refl rest g]
end

mutual
theorem equals_symm : ∀ (a b : ir_rvalue), a.equals b true = true → b.equals a true = true
  | .deref v, .deref w, h => by
      simp only [ir_rvalue.equals, beq_iff_eq] at h ⊢
      exact h.symm
  | .deref v, .swizzle _ _ _, h => by simp [ir_rvalue.equals] at h
  | .deref v, .expression _ _ _, h => by simp [ir_rvalue.equals] at h
  | .swizzle val m t, .deref _, h => by simp [ir_rvalue.equals] at h
  | .swizzle val m t, .swizzle val' m' t', h => by
      simp only [ir_rvalue.equals, if_true, Bool.and_eq_true, beq_iff_eq] at h ⊢
      exact ⟨h.1.symm, equals_symm val val' h.2⟩
  | .swizzle val m t, .expression _ _ _, h => by simp [ir_rvalue.equals] at h
  | .expression t op ops, .deref _, h => by simp [ir_rvalue.equals] at h
  | .expression t op ops, .swizzle _ _ _, h => by simp [ir_rvalue.equals] at h
  | .expression t op ops, .expression t' op' ops', h => by
      simp only [ir_rvalue.equals, Bool.and_eq_true, beq_iff_eq] at h ⊢
      exact ⟨⟨h.1.1.symm, h.1.2.symm⟩, operands_equals_symm ops ops' h.2⟩
theorem operands_equals_symm :
    ∀ (a b : ir_operands), a.equals b true = true → b.equals a true = true
  | .nil, .nil, h => by simp [ir_operands.equals]
  | .nil, .cons _ _, h => by simp [ir_operands.equals] at h
  | .cons _ _, .nil, h => by simp [ir_operands.equals] at h
  | .cons o rest, .cons o' rest', h => by
      simp only [ir_operands.equals, Bool.and_eq_true] at h ⊢
      exact ⟨equals_symm o o' h.1, operands_equals_symm rest rest' h.2⟩
end

mutual
theorem equals_trans : ∀ (a b c : ir_rvalue),
    a.equals b true = true → b.equals c true = true → a.equals c true = true
  | .deref v, .deref w, .deref u, h1, h2 => by
      simp only [ir_rvalue.equals, beq_iff_eq] at h1 h2 ⊢
      exact h1.trans h2
  | .swizzle val m t, .swizzle val' m' t', .swizzle val'' m'' t'', h1, h2 => by
      simp only [ir_rvalue.equals, if_true, Bool.and_eq_true, beq_iff_eq] at h1 h2 ⊢
      exact ⟨h1.1.trans h2.1, equals_trans val val' val'' h1.2 h2.2⟩
  | .expression t op ops, .expression t' op' ops', .expression t'' op'' ops'', h1, h2 => by
      simp only [ir_rvalue.equals, Bool.and_eq_true, beq_iff_eq] at h1 h2 ⊢
      exact ⟨⟨h1.1.1.trans h2.1.1, h1.1.2.trans h2.1.2⟩,
        operands_equals_trans ops ops' ops'' h1.2 h2.2⟩
  | .deref _, .swizzle _ _ _, _, h1, _ => by simp [ir_rvalue.equals] at h1
  | .deref _, .expression _ _ _, _, h1, _ => by simp [ir_rvalue.equals] at h1
  | .swizzle _ _ _, .deref _, _, h1, _ => by simp [ir_rvalue.equals] at h1
  | .swizzle _ _ _, .expression _ _ _, _, h1, _ => by simp [ir_rvalue.equals] at h1
  | .expression _ _ _, .deref _, _, h1, _ => by simp [ir_rvalue.equals] at h1
  | .expression _ _ _, .swizzle _ _ _, _, h1, _ => by simp [ir_rvalue.equals] at h1
  | .deref _, .deref _, .swizzle _ _ _, _, h2 => by simp [ir_rvalue.equals] at h2
  | .deref _, .deref _, .expression _ _ _, _, h2 => by simp [ir_rvalue.equals] at h2
  | .swizzle _ _ _, .swizzle _ _ _, .deref _, _, h2 => by simp [ir_rvalue.equals] at h2
  | .swizzle _ _ _, .swizzle _ _ _, .expression _ _ _, _, h2 => by simp [ir_rvalue.equals] at h2
  | .expression _ _ _, .expression _ _ _, .deref _, _, h2 => by simp [ir_rvalue.equals] at h2
  | .expression _ _ _, .expression _ _ _, .swizzle _ _ _, _, h2 => by
      simp [ir_rvalue.equals] at h2
theorem operands_equals_trans : ∀ (a b c : ir_operands),
    a.equals b true = true → b.equals c true = true → a.equals c true = true
  | .nil, .nil, .nil, _, _ => by simp [ir_operands.equals]
  | .cons o rest, .cons o' rest', .cons o'' rest'', h1, h2 => by
      simp only [ir_operands.equals, Bool.and_eq_true] at h1 h2 ⊢
      exact ⟨equals_trans o o' o'' h1.1 h2.1, operands_equals_trans rest rest' rest'' h1.2 h2.2⟩
  | .nil, .cons _ _, _, h1, _ => by simp [ir_operands.equals] at h1
  | .cons _ _, .nil, _, h1, _ => by simp [ir_operands.equals] at h1
  | .nil, .nil, .cons _ _, _, h2 => by simp [ir_operands.equals] at h2
  | .cons _ _, .cons _ _, .nil, _, h2 => by simp [ir_operands.equals] at h2
end

/-! ## The invariant of the traversal -/

theorem getD_none4 (i : Nat) : ([none, none, none, none] : List (Option Nat)).getD i none = none := by
  match i with
  | 0 => rfl
  | 1 => rfl
  | 2 => rfl
  | 3 => rfl
  | n + 4 => rfl

theorem getD_set (S : List (Option Nat)) (s i : Nat) (x : Option Nat) (hs : s < S.length) :
    (S.set s x).getD i none = if i = s then x else S.getD i none := by
  simp only [List.getD_eq_getElem?_getD, List.getElem?_set]
  by_cases h : s = i
  · subst h; simp [hs]
  · have h2 : ¬ i = s := fun e => h e.symm
    simp [h, h2]

theorem getLast?_mem {R : List Nat} {k : Nat} (h : R.getLast? = some k) : k ∈ R :=
  List.mem_of_getLast?_eq_some h

theorem Settled.mono {l : List ir_assignment} {L L' : exec_list} {P Q : Nat → Prop} {j : Nat}
    (h : Settled l L P j) (hj : L'[j]? = L[j]?) (hPQ : ∀ k, P k → Q k)
    (hP : ∀ k, P k → L'[k]? = L[k]?) : Settled l L' Q j := by
  obtain ⟨a, ha, h⟩ := h
  refine ⟨a, ha, ?_⟩
  rcases h with h | ⟨R, hR, hN, hl, h⟩ | ⟨h, hs, R, k, b, hR, hN, hjR, hl, hjk, hk, hb, hLk, hd, he⟩
  · exact Or.inl (hj.trans h)
  · exact Or.inr (Or.inl ⟨R, hR, hN, hl, hj.trans h⟩)
  · exact Or.inr (Or.inr ⟨hj.trans h, hs, R, k, b, hR, hN, hjR, hl, hjk, hPQ k hk, hb,
      (hP k hk).trans hLk, hd, he⟩)

theorem commits_single {a : ir_assignment} (h : commits a = true) :
    single_channel_write_mask a.write_mask = true := by
  have hs := commits_slot h
  rw [hs.2.2]
  exact single_channel_shift _ hs.2.1

/-! ## Write masks -/

theorem testBit_fold_lor (b : Nat) : ∀ (ms : List Nat) (acc : Nat),
    (ms.foldl (fun w m => w ||| m) acc).testBit b = (acc.testBit b || ms.any (fun m => m.testBit b))
  | [], acc => by simp
  | m :: ms, acc => by
      simp only [List.foldl_cons, List.any_cons]
      rw [testBit_fold_lor b ms, Nat.testBit_lor, Bool.or_assoc]

theorem testBit_slot_bits (S : List (Option Nat)) (b : Nat) : ∀ (is : List Nat) (w : Nat),
    (slot_bits S is w).testBit b =
      (w.testBit b || is.any (fun i => (S.getD i none).isSome && decide (i = b)))
  | [], w => by simp [slot_bits]
  | i :: is, w => by
      have ih := testBit_slot_bits S b is
      simp only [slot_bits, List.foldl_cons, List.any_cons] at ih ⊢
      rw [ih]
      cases (S.getD i none).isSome with
      | false => simp
      | true =>
          simp only [if_true, Nat.testBit_lor, Nat.one_shiftLeft, Nat.testBit_two_pow,
            Bool.true_and, Bool.or_assoc]

theorem Inv.slot_bits_eq {l : List ir_assignment} {m : Nat} {R : List Nat}
    {v : ir_vectorize_visitor} (h : Inv l m R v) :
    slot_bits v.assignment [0, 1, 2, 3] 0 = union_masks (run_masks l R) := by
  apply Nat.eq_of_testBit_eq
  intro b
  unfold union_masks
  rw [testBit_slot_bits, testBit_fold_lor]
  simp only [Nat.zero_testBit, Bool.false_or]
  rw [Bool.eq_iff_iff]
  simp only [List.any_eq_true, Bool.and_eq_true, decide_eq_true_eq]
  constructor
  · rintro ⟨i, _, hocc, hib⟩
    subst hib
    obtain ⟨j, hj⟩ := Option.isSome_iff_exists.mp hocc
    obtain ⟨hjR, a, ha, hsa⟩ := h.slot i j hj
    obtain ⟨a', ha', _, hca, _⟩ := h.live j hjR
    rw [ha] at ha'; cases ha'
    refine ⟨a.write_mask, ?_, ?_⟩
    · unfold run_masks
      rw [List.mem_filterMap]
      exact ⟨j, hjR, by rw [ha]; rfl⟩
    · rw [(commits_slot hca).2.2, hsa, Nat.one_shiftLeft, Nat.testBit_two_pow_self]
  · rintro ⟨w, hw, hb⟩
    unfold run_masks at hw
    rw [List.mem_filterMap] at hw
    obtain ⟨j, hjR, hjw⟩ := hw
    obtain ⟨a, ha, _, hca, hocc⟩ := h.live j hjR
    rw [ha] at hjw
    simp only [Option.map_some', Option.some.injEq] at hjw
    subst hjw
    have hs := commits_slot hca
    rw [hs.2.2, Nat.one_shiftLeft, Nat.testBit_two_pow, decide_eq_true_eq] at hb
    refine ⟨slot_of a, ?_, hocc, hb⟩
    have := hs.2.1
    interval_cases (slot_of a) <;> simp

theorem Inv.not_in_slots {l : List ir_assignment} {m : Nat} {R : List Nat}
    {v : ir_vectorize_visitor} (h : Inv l m R v) {j : Nat} (hj : j ∉ R) :
    ∀ i ∈ [0, 1, 2, 3], v.assignment.getD i none ≠ some j :=
  fun i _ e => hj (h.slot i j e).1

theorem Inv.untouched {l : List ir_assignment} {m : Nat} {R : List Nat}
    {v : ir_vectorize_visitor} (h : Inv l m R v) {j : Nat} (hj : j ∉ R) :
    (try_vectorize v).instructions[j]? = v.instructions[j]? := by
  cases hl : v.last_assignment with
  | none => rw [(try_vectorize_noop v (Or.inl hl)).1]
  | some k =>
      have hk : k ∈ R := getLast?_mem (h.last.symm.trans hl)
      have hjk : j ≠ k := fun e => hj (e ▸ hk)
      exact try_vectorize_kept v k j hl hjk (h.not_in_slots hj)

theorem Inv.seal {l : List ir_assignment} {m : Nat} {R : List Nat}
    {v : ir_vectorize_visitor} (h : Inv l m R v) (hR : 1 < R.length → sealed_run l R) :
    Inv l m [] (try_vectorize v) where
  len := (try_vectorize_length v).trans h.len
  cur := try_vectorize_current v
  hs := try_vectorize_has_swizzle v
  slots := by rw [try_vectorize_assignment]; rfl
  chan := try_vectorize_channels v
  last := try_vectorize_last v
  size := by simp
  lt := by simp
  le_last := by simp
  live := by simp
  slot := by
    intro i j e
    rw [try_vectorize_assignment, getD_none4] at e
    cases e
  compat := by simp
  future := by
    intro j hj
    have hjR : j ∉ R := fun hm => Nat.lt_irrefl j (Nat.lt_of_lt_of_le (h.lt j hm) hj)
    rw [h.untouched hjR]
    exact h.future j hj
  settled := by
    intro j hjm _ hjl
    by_cases hjR : j ∈ R
    · obtain ⟨a, ha, hLa, hca, hsl⟩ := h.live j hjR
      refine ⟨a, ha, ?_⟩
      by_cases hc : 1 < v.channels
      · obtain ⟨k, hk⟩ : ∃ k, R.getLast? = some k := by
          cases hR : R.getLast? with
          | some k => exact ⟨k, rfl⟩
          | none =>
              rw [List.getLast?_eq_none_iff] at hR
              rw [hR] at hjR; cases hjR
        have hlast : v.last_assignment = some k := h.last.trans hk
        have hkR : k ∈ R := getLast?_mem hk
        obtain ⟨b, hb, hLb, hcb, _⟩ := h.live k hkR
        have hlenR : 1 < R.length := by rw [← h.chan]; exact hc
        have hanchor : (try_vectorize v).instructions[k]? =
            some (some (rewritten b R.length (union_masks (run_masks l R)))) := by
          rw [try_vectorize_anchor v k hlast hc, hLb, h.slot_bits_eq, h.chan]; rfl
        by_cases hjk : j = k
        · subst hjk
          rw [ha] at hb; cases hb
          exact Or.inr (Or.inl ⟨R, hR hlenR, hlenR, hk, hanchor⟩)
        · by_cases hslot : ∃ i ∈ [0, 1, 2, 3], v.assignment.getD i none = some j
          · obtain ⟨a', b', ha', hb', hl, he⟩ := h.compat j hjR k hk
            rw [ha] at ha'; cases ha'
            rw [hb] at hb'; cases hb'
            refine Or.inr (Or.inr ⟨?_, commits_single hca, R, k, b, hR hlenR, hlenR, hjR, hk, ?_,
              ?_, hb, hanchor, hl, he⟩)
            · rw [try_vectorize_removed v k j hlast hc hjk hslot, hLa]; rfl
            · exact Nat.lt_of_le_of_ne (h.le_last j hjR k hk) hjk
            · exact ⟨h.lt k hkR, by simp⟩
          · refine Or.inl ?_
            rw [try_vectorize_kept v k j hlast hjk (fun i hi e => hslot ⟨i, hi, e⟩)]
            exact hLa
      · refine Or.inl ?_
        rw [(try_vectorize_noop v (Or.inr (by omega))).1]
        exact hLa
    · exact (h.settled j hjm hjR hjl).mono (h.untouched hjR)
        (fun k hk => ⟨hk.1, by simp⟩) (fun k hk => h.untouched hk.2)
  prog_false := by
    intro hp
    by_cases hc : (∃ k, v.last_assignment = some k) ∧ 1 < v.channels
    · obtain ⟨⟨k, hk⟩, hc⟩ := hc
      rw [try_vectorize_progress v k hk hc] at hp
      cases hp
    · have hn : v.last_assignment = none ∨ v.channels ≤ 1 := by
        cases hl : v.last_assignment with
        | none => exact Or.inl rfl
        | some k => exact Or.inr (Nat.le_of_not_lt (fun hc' => hc ⟨⟨k, hl⟩, hc'⟩))
      have hn2 := try_vectorize_noop v hn
      rw [hn2.2] at hp
      rw [hn2.1]
      exact h.prog_false hp
  prog_true := by
    intro hp
    by_cases hc : (∃ k, v.last_assignment = some k) ∧ 1 < v.channels
    · obtain ⟨⟨k, hk⟩, hc⟩ := hc
      have hkR : k ∈ R := getLast?_mem (h.last.symm.trans hk)
      obtain ⟨b, hb, hLb, hcb, _⟩ := h.live k hkR
      refine ⟨k, b, v.channels, slot_bits v.assignment [0, 1, 2, 3] 0, ⟨h.lt k hkR, by simp⟩,
        hb, hcb, hc, ?_⟩
      rw [try_vectorize_anchor v k hk hc, hLb]; rfl
    · have hn : v.last_assignment = none ∨ v.channels ≤ 1 := by
        cases hl : v.last_assignment with
        | none => exact Or.inl rfl
        | some k => exact Or.inr (Nat.le_of_not_lt (fun hc' => hc ⟨⟨k, hl⟩, hc'⟩))
      have hn2 := try_vectorize_noop v hn
      rw [hn2.2] at hp
      obtain ⟨k, a, N, w, hk, ha, hca, hN, hL⟩ := h.prog_true hp
      exact ⟨k, a, N, w, ⟨hk.1, by simp⟩, ha, hca, hN, by rw [hn2.1]; exact hL⟩

theorem incompatible_false {ch : Nat} {last : Option ir_assignment} {ir : ir_assignment}
    (h : incompatible ch last ir = false) :
    ch < 4 ∧ ir.condition = none ∧ single_channel_write_mask ir.write_mask = true ∧
      ∀ la, last = some la → ir.lhs = la.lhs ∧ ir.rhs.equals la.rhs true = true := by
  unfold incompatible at h
  simp only [Bool.or_eq_false_iff, decide_eq_false_iff_not, Bool.not_eq_false'] at h
  obtain ⟨⟨⟨⟨h1, h2⟩, h3⟩, h4⟩, h5⟩ := h
  have h1' : ir.condition = none := by
    cases hc : ir.condition with
    | none => rfl
    | some c => rw [hc] at h1; cases h1
  refine ⟨by omega, h1', h3, ?_⟩
  intro la hla
  subst hla
  simp only [Bool.not_eq_false', beq_iff_eq] at h4 h5
  exact ⟨h4, h5⟩

theorem Inv.step_commit {l : List ir_assignment} {m : Nat} {R : List Nat}
    {v : ir_vectorize_visitor} (h : Inv l m R v) {a : ir_assignment} (ha : l[m]? = some a)
    (hc : commits a = true)
    (hR : R = [] ∨ incompatible R.length (R.getLast?.bind (fun q => l[q]?)) a = false) :
    Inv l (m + 1) (R ++ [m]) (commit v m (slot_of a)) := by
  have hsl := commits_slot hc
  have hslen : slot_of a < v.assignment.length := by rw [h.slots]; exact hsl.2.1
  have hLm : v.instructions[m]? = some (some a) := by
    rw [h.future m (Nat.le_refl m), ha]; rfl
  have hmR : m ∉ R := fun hm => Nat.lt_irrefl m (h.lt m hm)
  have hlast : (R ++ [m]).getLast? = some m := by simp
  exact
  { len := h.len
    cur := rfl
    hs := rfl
    slots := by simp [commit, h.slots]
    chan := by simp [commit, h.chan]
    last := by simp [commit]
    size := by
      rcases hR with hR | hR
      · subst hR; simp
      · have := (incompatible_false hR).1
        simp only [List.length_append, List.length_singleton]
        omega
    lt := by
      intro j hj
      rcases List.mem_append.mp hj with hj | hj
      · exact Nat.lt_succ_of_lt (h.lt j hj)
      · rw [List.mem_singleton.mp hj]; exact Nat.lt_succ_self m
    le_last := by
      intro j hj k hk
      rw [hlast] at hk; cases hk
      rcases List.mem_append.mp hj with hj | hj
      · exact Nat.le_of_lt (h.lt j hj)
      · rw [List.mem_singleton.mp hj]
    live := by
      intro j hj
      rcases List.mem_append.mp hj with hj | hj
      · obtain ⟨b, hb, hLb, hcb, hsb⟩ := h.live j hj
        refine ⟨b, hb, hLb, hcb, ?_⟩
        show ((v.assignment.set (slot_of a) (some m)).getD (slot_of b) none).isSome = true
        rw [getD_set _ _ _ _ hslen]
        split
        · rfl
        · exact hsb
      · rw [List.mem_singleton.mp hj]
        refine ⟨a, ha, hLm, hc, ?_⟩
        show ((v.assignment.set (slot_of a) (some m)).getD (slot_of a) none).isSome = true
        rw [getD_set _ _ _ _ hslen]
        simp
    slot := by
      intro i j e
      have e' : (v.assignment.set (slot_of a) (some m)).getD i none = some j := e
      rw [getD_set _ _ _ _ hslen] at e'
      by_cases hi : i = slot_of a
      · rw [if_pos hi] at e'
        cases e'
        exact ⟨List.mem_append.mpr (Or.inr (List.mem_singleton.mpr rfl)), a, ha, hi.symm⟩
      · rw [if_neg hi] at e'
        obtain ⟨hj, hx⟩ := h.slot i j e'
        exact ⟨List.mem_append.mpr (Or.inl hj), hx⟩
    compat := by
      intro j hj k hk
      rw [hlast] at hk; cases hk
      rcases List.mem_append.mp hj with hj | hj
      · rcases hR with hR | hR
        · subst hR; cases hj
        · obtain ⟨k0, hk0⟩ : ∃ k0, R.getLast? = some k0 := by
            cases hR' : R.getLast? with
            | some k0 => exact ⟨k0, rfl⟩
            | none =>
                rw [List.getLast?_eq_none_iff] at hR'
                rw [hR'] at hj; cases hj
          obtain ⟨b, b0, hb, hb0, hl, he⟩ := h.compat j hj k0 hk0
          rw [hk0] at hR
          simp only [Option.some_bind, hb0] at hR
          have hcomp := (incompatible_false hR).2.2.2 b0 rfl
          refine ⟨b, a, hb, ha, hl.trans hcomp.1.symm, ?_⟩
          exact equals_trans _ _ _ he (equals_symm _ _ hcomp.2)
      · rw [List.mem_singleton.mp hj]
        exact ⟨a, a, ha, ha, rfl, equals_refl _ _⟩
    future := by
      intro j hj
      exact h.future j (Nat.le_of_succ_le hj)
    settled := by
      intro j hj hjR hjl
      have hjR' : j ∉ R := fun hm => hjR (List.mem_append.mpr (Or.inl hm))
      have hjm : j ≠ m := fun e => hjR (List.mem_append.mpr (Or.inr (List.mem_singleton.mpr e)))
      have hjm' : j < m := by omega
      refine (h.settled j hjm' hjR' hjl).mono rfl ?_ (fun _ _ => rfl)
      intro k hk
      refine ⟨Nat.lt_succ_of_lt hk.1, ?_⟩
      intro hm
      rcases List.mem_append.mp hm with hm | hm
      · exact hk.2 hm
      · rw [List.mem_singleton.mp hm] at hk; exact Nat.lt_irrefl m hk.1
    prog_false := h.prog_false
    prog_true := by
      intro hp
      obtain ⟨k, b, N, w, hk, hb, hcb, hN, hL⟩ := h.prog_true hp
      refine ⟨k, b, N, w, ⟨Nat.lt_succ_of_lt hk.1, ?_⟩, hb, hcb, hN, hL⟩
      intro hm
      rcases List.mem_append.mp hm with hm | hm
      · exact hk.2 hm
      · rw [List.mem_singleton.mp hm] at hk; exact Nat.lt_irrefl m hk.1 }

theorem Inv.step_skip {l : List ir_assignment} {m : Nat} {R : List Nat}
    {v : ir_vectorize_visitor} (h : Inv l m R v) {a : ir_assignment} (ha : l[m]? = some a) :
    Inv l (m + 1) R (skip v) := by
  have hLm : v.instructions[m]? = some (some a) := by
    rw [h.future m (Nat.le_refl m), ha]; rfl
  exact
  { len := h.len
    cur := rfl
    hs := rfl
    slots := h.slots
    chan := h.chan
    last := h.last
    size := h.size
    lt := fun j hj => Nat.lt_succ_of_lt (h.lt j hj)
    le_last := h.le_last
    live := h.live
    slot := h.slot
    compat := h.compat
    future := fun j hj => h.future j (Nat.le_of_succ_le hj)
    settled := by
      intro j hj hjR hjl
      by_cases hjm : j = m
      · subst hjm
        exact ⟨a, ha, Or.inl hLm⟩
      · have hjm' : j < m := by omega
        exact (h.settled j hjm' hjR hjl).mono rfl
          (fun k hk => ⟨Nat.lt_succ_of_lt hk.1, hk.2⟩) (fun _ _ => rfl)
    prog_false := h.prog_false
    prog_true := by
      intro hp
      obtain ⟨k, b, N, w, hk, hb, hcb, hN, hL⟩ := h.prog_true hp
      exact ⟨k, b, N, w, ⟨Nat.lt_succ_of_lt hk.1, hk.2⟩, hb, hcb, hN, hL⟩ }

theorem Inv.step_none {l : List ir_assignment} {m : Nat} {R : List Nat}
    {v : ir_vectorize_visitor} (h : Inv l m R v) (ha : l[m]? = none) :
    Inv l (m + 1) R v := by
  have hml : l.length ≤ m := by
    rcases Nat.lt_or_ge m l.length with h1 | h1
    · rw [List.getElem?_eq_getElem h1] at ha; cases ha
    · exact h1
  exact
  { len := h.len
    cur := h.cur
    hs := h.hs
    slots := h.slots
    chan := h.chan
    last := h.last
    size := h.size
    lt := fun j hj => Nat.lt_succ_of_lt (h.lt j hj)
    le_last := h.le_last
    live := h.live
    slot := h.slot
    compat := h.compat
    future := fun j hj => h.future j (Nat.le_of_succ_le hj)
    settled := by
      intro j hj hjR hjl
      have hjm' : j < m := by omega
      exact (h.settled j hjm' hjR hjl).mono rfl
        (fun k hk => ⟨Nat.lt_succ_of_lt hk.1, hk.2⟩) (fun _ _ => rfl)
    prog_false := h.prog_false
    prog_true := by
      intro hp
      obtain ⟨k, b, N, w, hk, hb, hcb, hN, hL⟩ := h.prog_true hp
      exact ⟨k, b, N, w, ⟨Nat.lt_succ_of_lt hk.1, hk.2⟩, hb, hcb, hN, hL⟩ }

theorem Inv.init (l : List ir_assignment) :
    Inv l 0 [] (ir_vectorize_visitor.new (l.map some)) where
  len := by simp [ir_vectorize_visitor.new]
  cur := rfl
  hs := rfl
  slots := rfl
  chan := rfl
  last := rfl
  size := by simp
  lt := by simp
  le_last := by simp
  live := by simp
  slot := by
    intro i j e
    have e' : ([none, none, none, none] : List (Option Nat)).getD i none = some j := e
    rw [getD_none4] at e'
    cases e'
  compat := by simp
  future := by
    intro j _
    simp [ir_vectorize_visitor.new]
  settled := by
    intro j hj
    exact absurd hj (Nat.not_lt_zero j)
  prog_false := fun _ => rfl
  prog_true := by
    intro hp
    cases hp

/-! ## Reachable states -/

theorem Inv.last_node {l : List ir_assignment} {m : Nat} {R : List Nat}
    {v : ir_vectorize_visitor} (h : Inv l m R v) :
    v.last_assignment.bind (node v.instructions) = R.getLast?.bind (fun q => l[q]?) := by
  rw [h.last]
  cases hk : R.getLast? with
  | none => rfl
  | some k =>
      obtain ⟨b, hb, hLb, _, _⟩ := h.live k (getLast?_mem hk)
      simp only [Option.some_bind, hb]
      exact node_eq_some.mpr hLb

theorem Inv.seal_progress {l : List ir_assignment} {m : Nat} {R : List Nat}
    {v : ir_vectorize_visitor} (h : Inv l m R v) :
    (try_vectorize v).progress = true ↔ (v.progress = true ∨ 1 < R.length) := by
  by_cases hc : 1 < R.length
  · obtain ⟨k, hk⟩ : ∃ k, R.getLast? = some k := by
      cases hR : R.getLast? with
      | some k => exact ⟨k, rfl⟩
      | none =>
          rw [List.getLast?_eq_none_iff] at hR
          rw [hR] at hc; simp at hc
    have hp := try_vectorize_progress v k (h.last.trans hk) (by rw [h.chan]; exact hc)
    simp [hp, hc]
  · have hn := try_vectorize_noop v (Or.inr (by rw [h.chan]; omega))
    rw [hn.2]
    simp [hc]

theorem Inv.accept {l : List ir_assignment} {m : Nat} {R : List Nat}
    {v : ir_vectorize_visitor} (h : Inv l m R v) (hR : R = open_run l m) :
    ∃ v', accept v m = some v' ∧ Inv l (m + 1) (run_step l R m) v' ∧
      (v'.progress = true ↔ (v.progress = true ∨
        ((∃ ir, l[m]? = some ir ∧
          incompatible R.length (R.getLast?.bind (fun q => l[q]?)) ir = true) ∧
          1 < R.length))) ∧
      (∀ j, j ∉ R → v'.instructions[j]? = v.instructions[j]?) ∧
      ((∃ ir, l[m]? = some ir ∧
          incompatible R.length (R.getLast?.bind (fun q => l[q]?)) ir = true) →
        v'.instructions = (try_vectorize v).instructions) := by
  cases ha : l[m]? with
  | none =>
      have hn : node v.instructions m = none := by
        unfold node
        rw [h.future m (Nat.le_refl m), ha]; rfl
      refine ⟨v, accept_none v m hn, ?_, ?_, fun _ _ => rfl, ?_⟩
      · have : run_step l R m = R := by simp [run_step, ha]
        rw [this]
        exact h.step_none ha
      · simp
      · rintro ⟨ir, hir, _⟩; cases hir
  | some a =>
      have hLm : v.instructions[m]? = some (some a) := by
        rw [h.future m (Nat.le_refl m), ha]; rfl
      have hnode : node v.instructions m = some a := node_eq_some.mpr hLm
      have hmR : m ∉ R := fun hm => Nat.lt_irrefl m (h.lt m hm)
      have hlast : ∀ q, v.last_assignment = some q → ∃ la, node v.instructions q = some la := by
        intro q hq
        obtain ⟨b, _, hLb, _, _⟩ := h.live q (getLast?_mem (h.last.symm.trans hq))
        exact ⟨b, node_eq_some.mpr hLb⟩
      have hkeep : node (try_vectorize v).instructions m = some a := by
        rw [node_eq_some, h.untouched hmR]; exact hLm
      have hacc := accept_eq v m a hnode h.hs hlast (fun _ => hkeep)
      rw [h.last_node, h.chan] at hacc
      cases hinc : incompatible R.length (R.getLast?.bind (fun q => l[q]?)) a with
      | true =>
          simp only [hinc, if_true] at hacc
          have hseal := h.seal (fun _ => ⟨m, Or.inr ⟨a, ha, by rw [← hR]; exact hinc⟩, hR.symm⟩)
          have hpr := h.seal_progress
          cases hc : commits a with
          | true =>
              simp only [hc, if_true] at hacc
              refine ⟨_, hacc, ?_, ?_, ?_, ?_⟩
              · have : run_step l R m = [] ++ [m] := by simp [run_step, ha, hinc, hc]
                rw [this]
                exact hseal.step_commit ha hc (Or.inl rfl)
              · show (try_vectorize v).progress = true ↔ _
                rw [hpr]
                simp [hinc]
              · intro j hj
                exact h.untouched hj
              · intro _; rfl
          | false =>
              simp only [hc, Bool.false_eq_true, if_false] at hacc
              refine ⟨_, hacc, ?_, ?_, ?_, ?_⟩
              · have : run_step l R m = [] := by simp [run_step, ha, hinc, hc]
                rw [this]
                exact hseal.step_skip ha
              · show (try_vectorize v).progress = true ↔ _
                rw [hpr]
                simp [hinc]
              · intro j hj
                exact h.untouched hj
              · intro _; rfl
      | false =>
          simp only [hinc, Bool.false_eq_true, if_false] at hacc
          cases hc : commits a with
          | true =>
              simp only [hc, if_true] at hacc
              refine ⟨_, hacc, ?_, ?_, fun _ _ => rfl, ?_⟩
              · have : run_step l R m = R ++ [m] := by simp [run_step, ha, hinc, hc]
                rw [this]
                exact h.step_commit ha hc (Or.inr hinc)
              · show v.progress = true ↔ _
                simp [hinc]
              · rintro ⟨ir, hir, hi⟩
                cases hir
                rw [hinc] at hi; cases hi
          | false =>
              simp only [hc, Bool.false_eq_true, if_false] at hacc
              refine ⟨_, hacc, ?_, ?_, fun _ _ => rfl, ?_⟩
              · have : run_step l R m = R := by simp [run_step, ha, hinc, hc]
                rw [this]
                exact h.step_skip ha
              · show v.progress = true ↔ _
                simp [hinc]
              · rintro ⟨ir, hir, hi⟩
                cases hir
                rw [hinc] at hi; cases hi

theorem reach (l : List ir_assignment) :
    ∀ m, ∃ v, state_after l m = some v ∧ Inv l m (open_run l m) v ∧
      (v.progress = true ↔ ∃ m', m' < m ∧ seals_at l m' ∧ 1 < (open_run l m').length)
  | 0 => ⟨_, rfl, Inv.init l, by simp [ir_vectorize_visitor.new]⟩
  | m + 1 => by
      obtain ⟨v, hv, hinv, hp⟩ := reach l m
      obtain ⟨v', hacc, hinv', hp', _, _⟩ := hinv.accept rfl
      refine ⟨v', ?_, ?_, ?_⟩
      · rw [state_after_succ, hv]; exact hacc
      · rw [open_run_succ]; exact hinv'
      · rw [hp', hp]
        constructor
        · rintro (⟨m', hm', hs⟩ | hs)
          · exact ⟨m', Nat.lt_succ_of_lt hm', hs⟩
          · exact ⟨m, Nat.lt_succ_self m, hs⟩
        · rintro ⟨m', hm', hs⟩
          rcases Nat.lt_succ_iff_lt_or_eq.mp hm' with h1 | h1
          · exact Or.inl ⟨m', h1, hs⟩
          · subst h1; exact Or.inr hs

theorem final_state (l : List ir_assignment) :
    ∃ v, state_after l l.length = some v ∧ Inv l l.length (open_run l l.length) v ∧
      (v.progress = true ↔
        ∃ m', m' < l.length ∧ seals_at l m' ∧ 1 < (open_run l m').length) ∧
      do_vectorize l =
        some (remaining (try_vectorize v).instructions, (try_vectorize v).progress) := by
  obtain ⟨v, hv, hinv, hp⟩ := reach l l.length
  refine ⟨v, hv, hinv, hp, ?_⟩
  rw [do_vectorize_eq, hv]
  rfl

theorem visit_tree_width (rhs : ir_rvalue) (N : Nat) (h : rhs.swizzles ≠ []) :
    (visit_tree rhs ⟨0, 1, 2, 3, N⟩).type.vector_elements = N := by
  cases rhs with
  | deref var => simp [ir_rvalue.swizzles] at h
  | swizzle val m t => simp [ir_rvalue.type, glsl_type.get_instance]
  | expression t op ops => simp [ir_rvalue.type, glsl_type.get_instance]

theorem commits_swizzles {a : ir_assignment} (h : commits a = true) : a.rhs.swizzles ≠ [] := by
  intro e
  simp [commits, e] at h

theorem filterMap_eq_length :
    ∀ (L : exec_list) (l : List ir_assignment), L.filterMap id = l → L.length = l.length →
      L = l.map some
  | [], l, h, _ => by
      simp at h
      subst h
      rfl
  | none :: L, l, h, hl => by
      simp only [List.filterMap_cons, id] at h
      have h1 := List.length_filterMap_le id L
      rw [h] at h1
      simp only [List.length_cons] at hl
      omega
  | some x :: L, l, h, hl => by
      simp only [List.filterMap_cons, id] at h
      subst h
      simp only [List.length_cons, Nat.add_right_cancel_iff] at hl
      simp only [List.map_cons]
      rw [← filterMap_eq_length L _ rfl hl]

theorem remaining_map_some (l : List ir_assignment) : remaining (l.map some) = l := by
  unfold remaining
  induction l with
  | nil => rfl
  | cons a l ih => simp only [List.map_cons, List.filterMap_cons, id, ih]

/-! ## Closed statements stay as they are -/

theorem mem_run_step {l : List ir_assignment} {R : List Nat} {p j : Nat}
    (h : j ∈ run_step l R p) : j ∈ R ∨ j = p := by
  unfold run_step at h
  split at h
  · rename_i ir _
    by_cases hi : incompatible R.length (R.getLast?.bind (fun q => l[q]?)) ir = true <;>
    by_cases hc : commits ir = true <;>
    simp [hi, hc] at h <;> simp [h]
  · exact Or.inl h

theorem stable (l : List ir_assignment) (m : Nat) :
    ∀ d v v', state_after l m = some v → state_after l (m + d) = some v' →
      ∀ j, j < m → j ∉ open_run l m →
        v'.instructions[j]? = v.instructions[j]? ∧ j ∉ open_run l (m + d)
  | 0, v, v', hv, hv', j, _, hj => by
      rw [Nat.add_zero, hv] at hv'
      cases hv'
      exact ⟨rfl, hj⟩
  | d + 1, v, v', hv, hv', j, hjm, hj => by
      obtain ⟨v1, hv1, hinv1, _⟩ := reach l (m + d)
      obtain ⟨ih1, ih2⟩ := stable l m d v v1 hv hv1 j hjm hj
      obtain ⟨v2, hacc, _, _, hun, _⟩ := hinv1.accept rfl
      have e : state_after l (m + (d + 1)) = some v2 := by
        rw [← Nat.add_assoc, state_after_succ, hv1]; exact hacc
      rw [e] at hv'
      cases hv'
      refine ⟨(hun j ih2).trans ih1, ?_⟩
      rw [← Nat.add_assoc, open_run_succ]
      intro hm
      rcases mem_run_step hm with hm | hm
      · exact ih2 hm
      · omega

/-! ## Properties of the whole pass -/

/-- C9: non-interference.  The output of the pass is the input with some
statements deleted and some rewritten in place (`remaining L`, where `L` lists
for every input position what is left there, so the surviving statements keep
their order).  Every statement is untouched, or is the anchor of a sealed run
of at least two statements and was rewritten in place, or was deleted; a
deleted statement had a single-channel write mask and was committed to a
sealed run whose anchor is a later, surviving statement with the same
destination and with an original right-hand side equal to its own modulo
swizzle. -/
theorem non_interference (l : List ir_assignment) :
    ∃ (L : exec_list) (p : Bool), do_vectorize l = some (remaining L, p) ∧
      L.length = l.length ∧
      ∀ j, j < l.length → Settled l L (fun k => k < l.length) j := by
  obtain ⟨v, _, hinv, _, hdo⟩ := final_state l
  have hfin := hinv.seal (fun _ => ⟨l.length, Or.inl rfl, rfl⟩)
  refine ⟨_, _, hdo, hfin.len, ?_⟩
  intro j hj
  exact (hfin.settled j hj (by simp) hj).mono rfl (fun k hk => hk.1) (fun _ _ => rfl)

/-- C8: the returned flag tells whether anything changed.  When every
single-channel assignment of the input has a scalar-typed right-hand side, the
pass returns true exactly when some run is rewritten, which is exactly when the
output differs from the input; when it returns false the output is the input. -/
theorem progress_iff_changed (l : List ir_assignment)
    (hscalar : ∀ a ∈ l, single_channel_write_mask a.write_mask = true →
      a.rhs.type.is_scalar = true) :
    ∃ (out : List ir_assignment) (p : Bool), do_vectorize l = some (out, p) ∧
      (p = true ↔ run_rewritten l) ∧ (p = true ↔ out ≠ l) ∧ (p = false → out = l) := by
  obtain ⟨v, _, hinv, hp, hdo⟩ := final_state l
  have hfin := hinv.seal (fun _ => ⟨l.length, Or.inl rfl, rfl⟩)
  have hchanged : (try_vectorize v).progress = true →
      remaining (try_vectorize v).instructions ≠ l := by
    intro hpt he
    obtain ⟨k, a, N, w, _, ha, hca, hN, hL⟩ := hfin.prog_true hpt
    have hmap := filterMap_eq_length _ _ he hfin.len
    rw [hmap] at hL
    simp only [List.getElem?_map, ha, Option.map_some', Option.some.injEq] at hL
    have hmem : a ∈ l := List.getElem?_mem ha
    have hsc := hscalar a hmem (commits_single hca)
    have hw := visit_tree_width a.rhs N (commits_swizzles hca)
    have hrhs : a.rhs = visit_tree a.rhs ⟨0, 1, 2, 3, N⟩ := by
      have := congrArg ir_assignment.rhs hL
      exact this
    rw [← hrhs] at hw
    simp only [glsl_type.is_scalar, decide_eq_true_eq] at hsc
    omega
  have hsame : (try_vectorize v).progress = false →
      remaining (try_vectorize v).instructions = l := by
    intro hpf
    rw [hfin.prog_false hpf]
    exact remaining_map_some l
  refine ⟨_, _, hdo, ?_, ?_, hsame⟩
  · rw [hinv.seal_progress, hp]
    rfl
  · constructor
    · exact hchanged
    · intro hne
      cases hpv : (try_vectorize v).progress with
      | true => rfl
      | false => exact absurd (hsame hpv) hne

/-- C6: mask completeness.  Whenever a run of at least two committed
statements is sealed (by the statement entered at position `m`, or at the end
of the list), the statement that the output holds at the position of the
anchor is the anchor rewritten to the width of the run, and its write mask is
the union of the original write masks of all statements committed to the
run. -/
theorem mask_completeness (l : List ir_assignment) :
    ∃ (L : exec_list) (p : Bool), do_vectorize l = some (remaining L, p) ∧
      ∀ m, (m = l.length ∨ seals_at l m) → 1 < (open_run l m).length →
        ∃ k a, (open_run l m).getLast? = some k ∧ l[k]? = some a ∧
          L[k]? = some (some (rewritten a (open_run l m).length
            (union_masks (run_masks l (open_run l m))))) := by
  obtain ⟨vn, hvn, hinvn, _, hdo⟩ := final_state l
  refine ⟨_, _, hdo, ?_⟩
  intro m hm hlen
  obtain ⟨v, hv, hinv, _⟩ := reach l m
  obtain ⟨k, hk⟩ : ∃ k, (open_run l m).getLast? = some k := by
    cases hR : (open_run l m).getLast? with
    | some k => exact ⟨k, rfl⟩
    | none =>
        rw [List.getLast?_eq_none_iff] at hR
        rw [hR] at hlen; simp at hlen
  have hkR := getLast?_mem hk
  obtain ⟨a, ha, hLa, _, _⟩ := hinv.live k hkR
  have hanchor : (try_vectorize v).instructions[k]? =
      some (some (rewritten a (open_run l m).length
        (union_masks (run_masks l (open_run l m))))) := by
    rw [try_vectorize_anchor v k (hinv.last.trans hk) (by rw [hinv.chan]; exact hlen), hLa,
      hinv.slot_bits_eq, hinv.chan]
    rfl
  refine ⟨k, a, hk, ha, ?_⟩
  rcases hm with hm | hm
  · subst hm
    rw [hvn] at hv
    cases hv
    exact hanchor
  · obtain ⟨v1, hacc, hinv1, _, _, hins⟩ := hinv.accept rfl
    have hv1 : state_after l (m + 1) = some v1 := by
      rw [state_after_succ, hv]; exact hacc
    have hins1 : v1.instructions = (try_vectorize v).instructions := hins hm
    have hkm : k < m := hinv.lt k hkR
    have hk1 : k ∉ open_run l (m + 1) := by
      rw [open_run_succ]
      obtain ⟨ir, hir, hinc⟩ := hm
      intro hmem
      unfold run_step at hmem
      rw [hir] at hmem
      simp only [hinc, if_true] at hmem
      by_cases hc : commits ir = true
      · simp [hc] at hmem; omega
      · simp [hc] at hmem
    have hml : m + 1 ≤ l.length := by
      obtain ⟨ir, hir, _⟩ := hm
      rcases Nat.lt_or_ge m l.length with h1 | h1
      · exact h1
      · rw [List.getElem?_eq_none h1] at hir; cases hir
    obtain ⟨d, hd⟩ : ∃ d, l.length = m + 1 + d := ⟨l.length - (m + 1), by omega⟩
    have hvn' : state_after l (m + 1 + d) = some vn := by rw [← hd]; exact hvn
    obtain ⟨hst1, hst2⟩ := stable l (m + 1) d v1 vn hv1 hvn' k (Nat.lt_succ_of_lt hkm) hk1
    rw [← hd] at hst2
    rw [hinvn.untouched hst2, hst1, hins1]
    exact hanchor

/-! ## Witnesses and inputs on which the pass misbehaves -/

/-- Witness of C2: Scenario A, `r1.x = log2(v0.x); r1.y = log2(v0.y);
r1.z = log2(v0.z)` becomes `r1.xyz = log2(v0.xyz)`. -/
theorem scalarized_run_is_vectorized_witness :
    (3 = 2 ∨ 3 = 3 ∨ 3 = 4) ∧ v0.type.is_vector = true ∧
      do_vectorize (scalarized 3 0 ir_unop_log2 v0 r1) = some ([log2_vector 3 7], true) :=
  ⟨by decide, by decide,
    scalarized_run_is_vectorized 3 0 ir_unop_log2 v0 r1 (by decide) (by decide)⟩

/-- Witness of C3: Scenario B with the vector `v0`, the scalar `s3` and the
destination `r1`. -/
theorem scalar_operand_is_broadcast_witness :
    v0.type.is_vector = true ∧ s3.type.is_scalar = true ∧
      do_vectorize [binary_assign r1 0 0 ir_binop_add v0 s3,
          binary_assign r1 1 0 ir_binop_add v0 s3] =
        some ([{ lhs := r1
                 rhs := .expression ⟨0, 2⟩ ir_binop_add
                   (.cons (.swizzle (.deref v0) ⟨0, 1, 2, 3, 2⟩ ⟨0, 2⟩)
                     (.cons (.swizzle (.deref s3) ⟨0, 0, 0, 0, 2⟩ ⟨0, 2⟩) .nil))
                 condition := none
                 write_mask := 3 }], true) :=
  ⟨by decide, by decide,
    scalar_operand_is_broadcast 0 ir_binop_add v0 s3 r1 (by decide) (by decide)⟩

/-- Witness of C4: Scenario C, `r1.x = log2(v0.x); r4.y = log2(v0.y)` is left
as it is. -/
theorem incompatible_pair_unchanged_witness :
    (log2_assign 0 0).condition = none ∧
      (unary_assign r4 1 0 ir_unop_log2 v0 1).condition = none ∧
      single_channel_write_mask (log2_assign 0 0).write_mask = true ∧
      single_channel_write_mask (unary_assign r4 1 0 ir_unop_log2 v0 1).write_mask = true ∧
      ((unary_assign r4 1 0 ir_unop_log2 v0 1).lhs ≠ (log2_assign 0 0).lhs ∨
        (unary_assign r4 1 0 ir_unop_log2 v0 1).rhs.equals (log2_assign 0 0).rhs true = false) ∧
      do_vectorize [log2_assign 0 0, unary_assign r4 1 0 ir_unop_log2 v0 1] =
        some ([log2_assign 0 0, unary_assign r4 1 0 ir_unop_log2 v0 1], false) :=
  ⟨by decide, by decide, by decide, by decide, by decide,
    incompatible_pair_unchanged (log2_assign 0 0) (unary_assign r4 1 0 ir_unop_log2 v0 1)
      (by decide) (by decide) (by decide) (by decide) (by decide)⟩

/-- Witness of C8 on `r1.x = log2(v0.x); r1.y = log2(v0.y)`. -/
theorem progress_iff_changed_witness :
    (∀ a ∈ [log2_assign 0 0, log2_assign 1 1],
        single_channel_write_mask a.write_mask = true → a.rhs.type.is_scalar = true) ∧
      ∃ (out : List ir_assignment) (p : Bool),
        do_vectorize [log2_assign 0 0, log2_assign 1 1] = some (out, p) ∧
        (p = true ↔ run_rewritten [log2_assign 0 0, log2_assign 1 1]) ∧
        (p = true ↔ out ≠ [log2_assign 0 0, log2_assign 1 1]) ∧
        (p = false → out = [log2_assign 0 0, log2_assign 1 1]) :=
  ⟨by decide, progress_iff_changed [log2_assign 0 0, log2_assign 1 1] (by decide)⟩

/-- Witness of C6 on `r1.x = log2(v0.x); r1.y = log2(v0.y)`: the run of the
two statements is sealed at the end of the list and the output holds
`r1.xy = log2(v0.xy)` at the position of the second statement. -/
theorem mask_completeness_witness :
    ∃ (L : exec_list) (p : Bool),
      do_vectorize [log2_assign 0 0, log2_assign 1 1] = some (remaining L, p) ∧
      L[1]? = some (some (log2_vector 2 3)) := by
  obtain ⟨L, p, h, hm⟩ := mask_completeness [log2_assign 0 0, log2_assign 1 1]
  obtain ⟨k, a, hk, ha, hL⟩ := hm 2 (Or.inl rfl) (by decide)
  have hk1 : (open_run [log2_assign 0 0, log2_assign 1 1] 2).getLast? = some 1 := by decide
  rw [hk1] at hk
  cases hk
  have ha1 : [log2_assign 0 0, log2_assign 1 1][1]? = some (log2_assign 1 1) := rfl
  rw [ha1] at ha
  cases ha
  refine ⟨L, p, h, ?_⟩
  rw [hL]
  decide

/-- Witness of C9 on `r1.x = log2(v0.x); r1.y = log2(v0.y)`, at the first
statement. -/
theorem non_interference_witness :
    ∃ (L : exec_list) (p : Bool),
      do_vectorize [log2_assign 0 0, log2_assign 1 1] = some (remaining L, p) ∧
      L.length = 2 ∧ Settled [log2_assign 0 0, log2_assign 1 1] L (fun k => k < 2) 0 := by
  obtain ⟨L, p, h, hlen, hs⟩ := non_interference [log2_assign 0 0, log2_assign 1 1]
  exact ⟨L, p, h, hlen, hs 0 (by decide)⟩

/-- C1, failing input: on `r1.y = log2(v0.y); r1.z = log2(v0.z)` the pass
produces `r1.yz = log2(v0.xy)`.  With `v0 = (10, 20, 30, 40)` the two scalar
statements store the values of `v0.y` and `v0.z`, the vector statement those
of `v0.x` and `v0.y`. -/
theorem run_not_starting_at_x_changes_values :
    do_vectorize [log2_assign 1 1, log2_assign 2 2] = some ([log2_vector 2 6], true) ∧
      exec_statements sample_sem sample_store [log2_assign 1 1, log2_assign 2 2] r1 =
        [0, 120, 130, 0] ∧
      exec_statements sample_sem sample_store [log2_vector 2 6] r1 = [0, 110, 120, 0] := by
  decide

/-- C5, failing input: on `if (c2) r1.x = log2(v0.x); r1.y = log2(v0.y)` the
pass removes the guarded assignment and leaves the single unguarded statement
`r1.xy = log2(v0.xy)`. -/
theorem guarded_assignment_is_merged :
    do_vectorize [{ log2_assign 0 0 with condition := some (.deref c2) }, log2_assign 1 1] =
      some ([log2_vector 2 3], true) := by
  decide

/-- C7, failing input: on three copies of `r1.x = log2(v0.x)` the pass rewrites
the third statement, and a second application to that output rewrites the
second statement and reports progress again. -/
theorem second_application_changes :
    do_vectorize [log2_assign 0 0, log2_assign 0 0, log2_assign 0 0] =
        some ([log2_assign 0 0, log2_assign 0 0, log2_vector 3 1], true) ∧
      do_vectorize [log2_assign 0 0, log2_assign 0 0, log2_vector 3 1] =
        some ([log2_assign 0 0, log2_vector 2 1, log2_vector 3 1], true) := by
  decide

/-- C10, failing input: on `r1.x = log2(v0.x); r1.z = log2(v0.y);
r1.y = log2(v0.y)` the first and the third statement are merged into
`r1.xy = log2(v0.xy)` while the second statement, which lies between them,
survives.  When the second statement is `r1.x = log2(v0.y)` instead, the merge
moves the first assignment to `r1.x` behind it and the final value of `r1.x`
changes. -/
theorem surviving_statement_between_merged :
    do_vectorize [log2_assign 0 0, log2_assign 2 1, log2_assign 1 1] =
        some ([log2_assign 2 1, log2_vector 2 3], true) ∧
      do_vectorize [log2_assign 0 0, log2_assign 0 1, log2_assign 1 1] =
        some ([log2_assign 0 1, log2_vector 2 3], true) ∧
      exec_statements sample_sem sample_store
        [log2_assign 0 0, log2_assign 0 1, log2_assign 1 1] r1 = [120, 120, 0, 0] ∧
      exec_statements sample_sem sample_store [log2_assign 0 1, log2_vector 2 3] r1 =
        [110, 120, 0, 0] := by
  decide

/-! ## The helpers on write masks -/

theorem land_pred_eq_zero_iff : ∀ w : Nat, 0 < w → (w &&& (w - 1) = 0 ↔ ∃ i, w = 2 ^ i) := by
  intro w
  induction w using Nat.strong_induction_on with
  | _ w ih =>
    intro hw
    rcases Nat.even_or_odd' w with ⟨k, hk | hk⟩
    · have hk0 : 0 < k := by omega
      have e1 : w = Nat.bit false k := by simp [Nat.bit_val, hk]
      have e2 : w - 1 = Nat.bit true (k - 1) := by simp [Nat.bit_val, hk]; omega
      rw [e2]
      rw [e1, Nat.land_bit]
      simp only [Bool.false_and, Nat.bit_false]
      have hk1 := ih k (by omega) hk0
      constructor
      · intro h
        have h2 : k &&& (k - 1) = 0 := by omega
        obtain ⟨i, hi⟩ := hk1.mp h2
        exact ⟨i + 1, by rw [hi, pow_succ]; ring⟩
      · rintro ⟨i, hi⟩
        cases i with
        | zero => simp at hi
        | succ i =>
          have hk2 : k = 2 ^ i := by rw [pow_succ] at hi; omega
          have hk3 := hk1.mpr ⟨i, hk2⟩
          omega
    · have e1 : w = Nat.bit true k := by simp [Nat.bit_val, hk]
      have e2 : w - 1 = Nat.bit false k := by simp [Nat.bit_val, hk]
      rw [e2]
      rw [e1, Nat.land_bit]
      simp only [Bool.and_false, Nat.bit_false, Nat.and_self]
      constructor
      · intro h
        exact ⟨0, by omega⟩
      · rintro ⟨i, hi⟩
        cases i with
        | zero => simp at hi; omega
        | succ i => rw [pow_succ] at hi; omega

theorem two_pow_iff_unique_bit (w : Nat) : (∃ i, w = 2 ^ i) ↔ ∃! i, w.testBit i = true := by
  constructor
  · rintro ⟨i, rfl⟩
    refine ⟨i, Nat.testBit_two_pow_self, ?_⟩
    intro j hj
    rw [Nat.testBit_two_pow] at hj
    exact (of_decide_eq_true hj).symm
  · rintro ⟨i, hi, huniq⟩
    refine ⟨i, Nat.eq_of_testBit_eq ?_⟩
    intro j
    rw [Nat.testBit_two_pow]
    by_cases hij : i = j
    · subst hij; simp [hi]
    · simp only [hij, decide_False]
      cases hj : w.testBit j with
      | false => rfl
      | true => exact absurd (huniq j hj).symm hij

theorem single_channel_iff_two_pow (w : Nat) (hw : w < 2 ^ 32) :
    single_channel_write_mask w = true ↔ ∃ i, w = 2 ^ i := by
  unfold single_channel_write_mask
  by_cases h0 : w = 0
  · subst h0
    simp only [bne_self_eq_false, Bool.false_and, Bool.false_eq_true, false_iff]
    rintro ⟨i, hi⟩
    have := Nat.pos_pow_of_pos i (by decide : 0 < 2)
    omega
  · have hpos : 0 < w := Nat.pos_of_ne_zero h0
    have hwrap : (w + 4294967295) % 4294967296 = w - 1 := by
      have : w < 4294967296 := hw
      omega
    rw [hwrap, ← land_pred_eq_zero_iff w hpos]
    simp [h0]

/-- C18: for every 32-bit unsigned write mask `w`, `single_channel_write_mask w`
(computed with wrap-around subtraction) is true if and only if exactly one bit
of `w` is set, that is if and only if `w` is `2 ^ i` for some `i < 32`; on the
four-channel masks 0..15 it is true exactly for 1, 2, 4 and 8. -/
theorem single_channel_iff_one_bit (w : Nat) (hw : w < 2 ^ 32) :
    (single_channel_write_mask w = true ↔ ∃! i, w.testBit i = true) ∧
    (single_channel_write_mask w = true ↔ ∃ i, i < 32 ∧ w = 2 ^ i) ∧
    (w < 16 → (single_channel_write_mask w = true ↔ w = 1 ∨ w = 2 ∨ w = 4 ∨ w = 8)) := by
  refine ⟨?_, ?_, ?_⟩
  · rw [single_channel_iff_two_pow w hw, two_pow_iff_unique_bit]
  · rw [single_channel_iff_two_pow w hw]
    constructor
    · rintro ⟨i, hi⟩
      refine ⟨i, ?_, hi⟩
      rw [hi] at hw
      exact (Nat.pow_lt_pow_iff_right (by decide : 1 < 2)).mp hw
    · rintro ⟨i, _, hi⟩
      exact ⟨i, hi⟩
  · intro h16
    interval_cases w <;> decide

theorem matches_iff (w : Nat) (s : ir_swizzle_mask) :
    write_mask_matches_swizzle w s = true ↔
      ((w = WRITEMASK_X ∨ w = WRITEMASK_Y ∨ w = WRITEMASK_Z ∨ w = WRITEMASK_W) ∧
        write_mask_to_swizzle w = some s.x) := by
  simp only [write_mask_matches_swizzle, write_mask_to_swizzle, WRITEMASK_X, WRITEMASK_Y,
    WRITEMASK_Z, WRITEMASK_W, SWIZZLE_X, SWIZZLE_Y, SWIZZLE_Z, SWIZZLE_W, Bool.or_eq_true,
    Bool.and_eq_true, beq_iff_eq]
  constructor
  · rintro (((⟨h1, h2⟩ | ⟨h1, h2⟩) | ⟨h1, h2⟩) | ⟨h1, h2⟩) <;> subst h1 <;> simp [h2]
  · rintro ⟨h1 | h1 | h1 | h1, h2⟩ <;> subst h1 <;> simp at h2 <;> simp [h2]

theorem to_swizzle_some {w i : Nat} (h : write_mask_to_swizzle w = some i) :
    i < 4 ∧ 1 <<< i = w := by
  simp only [write_mask_to_swizzle, WRITEMASK_X, WRITEMASK_Y, WRITEMASK_Z, WRITEMASK_W,
    SWIZZLE_X, SWIZZLE_Y, SWIZZLE_Z, SWIZZLE_W] at h
  split at h
  · cases h; rename_i hw; subst hw; decide
  · split at h
    · cases h; rename_i hw; subst hw; decide
    · split at h
      · cases h; rename_i hw; subst hw; decide
      · split at h
        · cases h; rename_i hw; subst hw; decide
        · cases h

/-- C19: the mapping between single-bit write masks and channels.  For every
`i` in 0..3, `write_mask_to_swizzle (1 << i) = i`; `write_mask_matches_swizzle
w s` is true if and only if `w` is one of the four single-bit masks and
`write_mask_to_swizzle w` is the first selected component of `s`, equivalently
`w = 1 << s.x` with `s.x ≤ 3`; and whenever `write_mask_to_swizzle w` returns
the slot index `i`, then `i` is in 0..3 and the bit `1 << i` set at seal is
`w` again. -/
theorem mask_channel_bijection :
    (∀ i, i < 4 → write_mask_to_swizzle (1 <<< i) = some i) ∧
    (∀ (w : Nat) (s : ir_swizzle_mask), write_mask_matches_swizzle w s = true ↔
      ((w = WRITEMASK_X ∨ w = WRITEMASK_Y ∨ w = WRITEMASK_Z ∨ w = WRITEMASK_W) ∧
        write_mask_to_swizzle w = some s.x)) ∧
    (∀ (w : Nat) (s : ir_swizzle_mask), write_mask_matches_swizzle w s = true ↔
      (w = 1 <<< s.x ∧ s.x ≤ 3)) ∧
    (∀ w i, write_mask_to_swizzle w = some i → i < 4 ∧ 1 <<< i = w) := by
  refine ⟨write_mask_to_swizzle_shift, matches_iff, ?_, fun w i h => to_swizzle_some h⟩
  intro w s
  constructor
  · intro h
    have hm := matches_to_swizzle h
    exact ⟨hm.2.2, Nat.le_of_lt_succ hm.2.1⟩
  · rintro ⟨hw, hs⟩
    subst hw
    rw [matches_iff]
    have hs4 : s.x < 4 := Nat.lt_succ_of_le hs
    refine ⟨?_, write_mask_to_swizzle_shift s.x hs4⟩
    generalize s.x = i at hs4
    interval_cases i <;> decide

/-! ## The visit of one assignment -/

theorem visit_enter_eq (v : ir_vectorize_visitor) (p : Nat) (ir : ir_assignment)
    (hlast : ∀ q, v.last_assignment = some q → ∃ la, node v.instructions q = some la) :
    visit_enter_assignment v p ir =
      some { (if incompatible v.channels (v.last_assignment.bind (node v.instructions)) ir
              then try_vectorize v else v) with current_assignment := some p } := by
  unfold visit_enter_assignment
  cases hl : v.last_assignment with
  | none => simp
  | some q =>
      obtain ⟨la, hla⟩ := hlast q hl
      simp [hla]

theorem visit_enter_some {v0 v1 : ir_vectorize_visitor} {p : Nat} {ir : ir_assignment}
    (h : visit_enter_assignment v0 p ir = some v1) :
    v1.current_assignment = some p ∧ (v0.has_swizzle = false → v1.has_swizzle = false) := by
  unfold visit_enter_assignment at h
  split at h
  · split at h
    · cases h
      refine ⟨rfl, ?_⟩
      intro h0
      show (if _ then try_vectorize v0 else v0).has_swizzle = false
      split
      · exact try_vectorize_has_swizzle v0
      · exact h0
    · cases h
  · cases h
    refine ⟨rfl, ?_⟩
    intro h0
    show (if _ then try_vectorize v0 else v0).has_swizzle = false
    split
    · exact try_vectorize_has_swizzle v0
    · exact h0

theorem all_matches_iff (w : Nat) (sw : List ir_swizzle_mask) :
    (sw.all (write_mask_matches_swizzle w) = true ∧ sw.isEmpty = false) ↔
      (sw ≠ [] ∧ ∀ s ∈ sw, write_mask_to_swizzle w = some s.x) := by
  constructor
  · rintro ⟨hall, hne⟩
    rw [List.all_eq_true] at hall
    refine ⟨?_, ?_⟩
    · intro e; rw [e] at hne; cases hne
    · intro s hs
      exact ((matches_iff w s).mp (hall s hs)).2
  · rintro ⟨hne, hall⟩
    refine ⟨?_, ?_⟩
    · rw [List.all_eq_true]
      intro s hs
      have h1 := hall s hs
      have h2 := to_swizzle_some h1
      rw [← h2.2]
      exact matches_shift s.x h2.1 s.y s.z s.w s.num_components
    · cases sw with
      | nil => exact absurd rfl hne
      | cons s rest => rfl

theorem leave_after_swizzles (v0 v1 : ir_vectorize_visitor) (p : Nat) (ir : ir_assignment)
    (sw : List ir_swizzle_mask)
    (hflag : v0.has_swizzle = false)
    (henter : visit_enter_assignment v0 p ir = some v1)
    (hnode : node v1.instructions p = some ir) :
    ∃ v2 v3, visit_swizzles sw v1 = some v2 ∧ visit_leave_assignment v2 p = some v3 ∧
      v3.current_assignment = none ∧ v3.has_swizzle = false ∧
      ((sw ≠ [] ∧ ∀ s ∈ sw, write_mask_to_swizzle ir.write_mask = some s.x) →
        ∃ ch, write_mask_to_swizzle ir.write_mask = some ch ∧
          v3.assignment = v1.assignment.set ch (some p) ∧
          v3.channels = v1.channels + 1 ∧ v3.last_assignment = some p) ∧
      (¬ (sw ≠ [] ∧ ∀ s ∈ sw, write_mask_to_swizzle ir.write_mask = some s.x) →
        v3.assignment = v1.assignment ∧ v3.channels = v1.channels ∧
          v3.last_assignment = v1.last_assignment) := by
  obtain ⟨hcur, hhs⟩ := visit_enter_some henter
  have hhs1 := hhs hflag
  obtain ⟨h', hsw⟩ := visit_swizzles_some p ir sw v1 hcur hnode
  rw [← all_matches_iff]
  by_cases hall : sw.all (write_mask_matches_swizzle ir.write_mask) = true
  · rw [if_pos hall] at hsw
    cases hemp : sw.isEmpty with
    | true =>
        refine ⟨_, skip v1, hsw, ?_, rfl, rfl, ?_, ?_⟩
        · simp [visit_leave_assignment, hhs1, hemp, skip]
        · rintro ⟨_, h⟩; cases h
        · intro _; exact ⟨rfl, rfl, rfl⟩
    | false =>
        obtain ⟨hne, hch⟩ := (all_matches_iff ir.write_mask sw).mp ⟨hall, hemp⟩
        obtain ⟨s, hs⟩ : ∃ s, s ∈ sw := by
          cases sw with
          | nil => exact absurd rfl hne
          | cons s rest => exact ⟨s, List.mem_cons_self _ _⟩
        have hslot := hch s hs
        refine ⟨_, commit v1 p s.x, hsw, ?_, rfl, rfl, ?_, ?_⟩
        · simp [visit_leave_assignment, hhs1, hemp, hcur, hnode, hslot, commit]
        · intro _
          exact ⟨s.x, hslot, rfl, rfl, rfl⟩
        · intro hn
          exact absurd ⟨hall, rfl⟩ hn
  · rw [if_neg hall] at hsw
    refine ⟨_, skip v1, hsw, ?_, rfl, rfl, ?_, ?_⟩
    · simp [visit_leave_assignment, skip]
    · rintro ⟨h, _⟩; exact absurd h hall
    · intro _; exact ⟨rfl, rfl, rfl⟩

/-- C13: the commit rule.  Take an assignment `ir` at position `p` that is
entered in a state whose confirmation flag is clear, let `sw` be the swizzle
nodes entered during its visit, and let `v1`, `v3` be the states after
`visit_enter` and after `visit_leave`.  If `sw` is not empty and the first
selected component of every swizzle in `sw` is the channel of the write mask,
the assignment is committed: it is stored in the slot of that channel, the
filled count grows by one and the anchor is set to it.  In every other case
the slots, the filled count and the anchor are those of `v1`.  In both cases
the scratch pointer and the confirmation flag are clear in `v3`, and both
visits return (no assertion fails). -/
theorem commit_rule (v0 v1 : ir_vectorize_visitor) (p : Nat) (ir : ir_assignment)
    (sw : List ir_swizzle_mask)
    (hflag : v0.has_swizzle = false)
    (henter : visit_enter_assignment v0 p ir = some v1)
    (hnode : node v1.instructions p = some ir) :
    ∃ v2 v3, visit_swizzles sw v1 = some v2 ∧ visit_leave_assignment v2 p = some v3 ∧
      v3.current_assignment = none ∧ v3.has_swizzle = false ∧
      ((sw ≠ [] ∧ ∀ s ∈ sw, write_mask_to_swizzle ir.write_mask = some s.x) →
        ∃ ch, write_mask_to_swizzle ir.write_mask = some ch ∧
          v3.assignment = v1.assignment.set ch (some p) ∧
          v3.channels = v1.channels + 1 ∧ v3.last_assignment = some p) ∧
      (¬ (sw ≠ [] ∧ ∀ s ∈ sw, write_mask_to_swizzle ir.write_mask = some s.x) →
        v3.assignment = v1.assignment ∧ v3.channels = v1.channels ∧
          v3.last_assignment = v1.last_assignment) :=
  leave_after_swizzles v0 v1 p ir sw hflag henter hnode

/-! ## More properties of the whole pass -/

theorem Inv.last_live {l : List ir_assignment} {m : Nat} {R : List Nat}
    {v : ir_vectorize_visitor} (h : Inv l m R v) :
    ∀ q, v.last_assignment = some q → ∃ la, node v.instructions q = some la := by
  intro q hq
  obtain ⟨b, _, hLb, _, _⟩ := h.live q (getLast?_mem (h.last.symm.trans hq))
  exact ⟨b, node_eq_some.mpr hLb⟩

theorem Inv.enter {l : List ir_assignment} {m : Nat} {R : List Nat}
    {v : ir_vectorize_visitor} (h : Inv l m R v) {ir : ir_assignment} (ha : l[m]? = some ir) :
    ∃ v1, visit_enter_assignment v m ir = some v1 ∧ v1.current_assignment = some m ∧
      v1.has_swizzle = false ∧ node v1.instructions m = some ir ∧ v1.channels < 4 ∧
      (incompatible R.length (R.getLast?.bind (fun q => l[q]?)) ir = true → v1.channels = 0) := by
  have hLm : v.instructions[m]? = some (some ir) := by
    rw [h.future m (Nat.le_refl m), ha]; rfl
  have hmR : m ∉ R := fun hm => Nat.lt_irrefl m (h.lt m hm)
  have he := visit_enter_eq v m ir h.last_live
  rw [h.last_node, h.chan] at he
  refine ⟨_, he, rfl, ?_, ?_, ?_, ?_⟩
  · show (if _ then try_vectorize v else v).has_swizzle = false
    split
    · exact try_vectorize_has_swizzle v
    · exact h.hs
  · show node (if _ then try_vectorize v else v).instructions m = some ir
    split
    · rw [node_eq_some, h.untouched hmR]; exact hLm
    · exact node_eq_some.mpr hLm
  · show (if _ then try_vectorize v else v).channels < 4
    split
    · rw [try_vectorize_channels]; decide
    · rename_i hinc
      have hf : incompatible R.length (R.getLast?.bind (fun q => l[q]?)) ir = false := by
        cases hi : incompatible R.length (R.getLast?.bind (fun q => l[q]?)) ir with
        | true => exact absurd hi hinc
        | false => rfl
      rw [h.chan]
      exact (incompatible_false hf).1
  · intro hinc
    show (if _ then try_vectorize v else v).channels = 0
    rw [if_pos hinc]
    exact try_vectorize_channels v

/-- C17: the defensive assertions are unreachable.  For every statement
sequence the pass returns a result (`none`, which stands for a failed
assertion, is never returned).  For every statement `ir` of the sequence, the
visits `visit_enter` and of its swizzle nodes return, and when the state
`v2` in which `visit_leave` is called takes the commit branch (confirmation
flag set and scratch pointer set), the scratch pointer is the assignment
being left and its write mask is one of the four single-bit masks, so that
`write_mask_to_swizzle` returns a slot index in 0..3. -/
theorem assertions_unreachable (l : List ir_assignment) :
    (∃ out p, do_vectorize l = some (out, p)) ∧
    ∀ m ir, l[m]? = some ir →
      ∃ v v1 v2 v3, state_after l m = some v ∧ visit_enter_assignment v m ir = some v1 ∧
        visit_swizzles ir.rhs.swizzles v1 = some v2 ∧ visit_leave_assignment v2 m = some v3 ∧
        (v2.has_swizzle = true → ∀ cur, v2.current_assignment = some cur →
          cur = m ∧ node v2.instructions cur = some ir ∧
          (ir.write_mask = WRITEMASK_X ∨ ir.write_mask = WRITEMASK_Y ∨
            ir.write_mask = WRITEMASK_Z ∨ ir.write_mask = WRITEMASK_W) ∧
          ∃ ch, ch < 4 ∧ write_mask_to_swizzle ir.write_mask = some ch) := by
  constructor
  · obtain ⟨v, _, _, _, hdo⟩ := final_state l
    exact ⟨_, _, hdo⟩
  · intro m ir ha
    obtain ⟨v, hv, hinv, _⟩ := reach l m
    obtain ⟨v1, he, hcur, hhs1, hnode1, _, _⟩ := hinv.enter ha
    obtain ⟨h', hsw⟩ := visit_swizzles_some m ir ir.rhs.swizzles v1 hcur hnode1
    obtain ⟨v2', v3, hsw', hleave, _⟩ :=
      leave_after_swizzles v v1 m ir ir.rhs.swizzles hinv.hs he hnode1
    refine ⟨v, v1, v2', v3, hv, he, hsw', hleave, ?_⟩
    rw [hsw] at hsw'
    cases hsw'
    intro hflag cur hc
    by_cases hall : ir.rhs.swizzles.all (write_mask_matches_swizzle ir.write_mask) = true
    · rw [if_pos hall] at hflag hc ⊢
      have hc' : v1.current_assignment = some cur := hc
      rw [hcur] at hc'
      cases hc'
      have hne : ir.rhs.swizzles.isEmpty = false := by
        have hf : (v1.has_swizzle || !ir.rhs.swizzles.isEmpty) = true := hflag
        rw [hhs1] at hf
        simpa using hf
      obtain ⟨hne', hch⟩ := (all_matches_iff ir.write_mask ir.rhs.swizzles).mp ⟨hall, hne⟩
      obtain ⟨s, hs⟩ : ∃ s, s ∈ ir.rhs.swizzles := by
        cases hsws : ir.rhs.swizzles with
        | nil => exact absurd hsws hne'
        | cons s rest => exact ⟨s, List.mem_cons_self _ _⟩
      have hm := (matches_iff ir.write_mask s).mp (List.all_eq_true.mp hall s hs)
      exact ⟨rfl, hnode1, hm.1, s.x, (to_swizzle_some hm.2).1, hm.2⟩
    · rw [if_neg hall] at hc
      cases hc

/-- C11: explicit swizzle evidence is required.  When no right-hand side of the
sequence contains a swizzle node, no statement is ever committed (after every
prefix the filled count is zero, the anchor is unset and every slot is empty),
and the pass returns false and leaves the sequence unchanged. -/
theorem no_swizzle_no_commit (l : List ir_assignment)
    (h : ∀ a ∈ l, a.rhs.swizzles = []) :
    do_vectorize l = some (l, false) ∧
    ∀ m, ∃ v, state_after l m = some v ∧ v.channels = 0 ∧ v.last_assignment = none ∧
      ∀ i, v.assignment.getD i none = none := by
  have hrun : ∀ m, open_run l m = [] := by
    intro m
    induction m with
    | zero => rfl
    | succ m ih =>
        rw [open_run_succ, ih]
        unfold run_step
        cases ha : l[m]? with
        | none => rfl
        | some ir =>
            have hc : commits ir = false := by
              simp [commits, h ir (List.getElem?_mem ha)]
            simp [hc]
  constructor
  · obtain ⟨v, _, hinv, hp, hdo⟩ := final_state l
    rw [hrun] at hinv
    have hpf : v.progress = false := by
      cases hpv : v.progress with
      | false => rfl
      | true =>
          obtain ⟨m', _, _, hlen⟩ := hp.mp hpv
          rw [hrun] at hlen
          simp at hlen
    have hn := try_vectorize_noop v (Or.inl hinv.last)
    rw [hdo, hn.1, hn.2, hpf, hinv.prog_false hpf, remaining_map_some]
  · intro m
    obtain ⟨v, hv, hinv, _⟩ := reach l m
    rw [hrun] at hinv
    refine ⟨v, hv, hinv.chan, hinv.last, ?_⟩
    intro i
    cases hg : v.assignment.getD i none with
    | none => rfl
    | some j => exact absurd (hinv.slot i j hg).1 (by simp)

/-- C16: the run size bound.  After every prefix of the sequence the filled
count is the number of statements committed to the open run and is at most 4,
and after `visit_enter` of the next statement it is below 4; hence every sealed
run, and with it the width to which `try_vectorize` rewrites, has at most four
statements, and `try_vectorize` rewrites nothing when the filled count is below
2.  When four statements are committed and a further statement is
entered, the run is sealed by that statement, whose `visit_enter` leaves the
filled count at zero, and the statement starts a fresh run: the open run
afterwards holds this statement alone if it commits and nothing otherwise. -/
theorem run_size_bound (l : List ir_assignment) :
    (∀ m, ∃ v, state_after l m = some v ∧ v.channels = (open_run l m).length ∧
      v.channels ≤ 4 ∧
      ∀ ir, l[m]? = some ir → ∃ v1, visit_enter_assignment v m ir = some v1 ∧
        v1.channels < 4 ∧ ((open_run l m).length = 4 → v1.channels = 0)) ∧
    (∀ R, sealed_run l R → R.length ≤ 4) ∧
    (∀ m ir, l[m]? = some ir → (open_run l m).length = 4 →
      seals_at l m ∧ open_run l (m + 1) = if commits ir = true then [m] else []) ∧
    (∀ v : ir_vectorize_visitor, v.channels ≤ 1 →
      (try_vectorize v).instructions = v.instructions ∧
        (try_vectorize v).progress = v.progress) := by
  have hseal : ∀ m ir, l[m]? = some ir → (open_run l m).length = 4 →
      incompatible (open_run l m).length ((open_run l m).getLast?.bind (fun q => l[q]?)) ir
        = true := by
    intro m ir _ h4
    simp [incompatible, h4]
  refine ⟨?_, ?_, ?_, fun v h => try_vectorize_noop v (Or.inr h)⟩
  · intro m
    obtain ⟨v, hv, hinv, _⟩ := reach l m
    refine ⟨v, hv, hinv.chan, by rw [hinv.chan]; exact hinv.size, ?_⟩
    intro ir ha
    obtain ⟨v1, he, _, _, _, hlt, hz⟩ := hinv.enter ha
    exact ⟨v1, he, hlt, fun h4 => hz (hseal m ir ha h4)⟩
  · rintro R ⟨m, _, rfl⟩
    obtain ⟨v, _, hinv, _⟩ := reach l m
    exact hinv.size
  · intro m ir ha h4
    have hinc := hseal m ir ha h4
    refine ⟨⟨ir, ha, hinc⟩, ?_⟩
    rw [open_run_succ]
    unfold run_step
    rw [ha]
    simp only [hinc, if_true]
    split <;> simp

/-! ## The rewrite node by node -/

mutual
theorem visit_tree_eq_spec (N : Nat) : ∀ rhs : ir_rvalue,
    visit_tree rhs ⟨0, 1, 2, 3, N⟩ = rewrite_spec N rhs
  | .deref var => by simp [rewrite_spec]
  | .swizzle val m t => by
      rw [visit_tree_swizzle, visit_tree_eq_spec N val]
      simp [rewrite_spec, glsl_type.get_instance]
  | .expression t op ops => by
      rw [visit_tree_expression, visit_operands_eq_spec N ops]
      simp [rewrite_spec, glsl_type.get_instance]
theorem visit_operands_eq_spec (N : Nat) : ∀ ops : ir_operands,
    visit_operands (rewrite_operands ops ⟨0, 1, 2, 3, N⟩) ⟨0, 1, 2, 3, N⟩ =
      rewrite_spec_operands N ops
  | .nil => by simp [rewrite_operands, rewrite_spec_operands]
  | .cons (.deref var) rest => by
      simp only [rewrite_operands, rewrite_operand, visit_operands_cons, rewrite_spec_operands]
      rw [visit_operands_eq_spec N rest]
      by_cases hs : var.type.is_scalar = true
      · have hv : var.type.is_vector = false := by
          simp only [glsl_type.is_scalar, decide_eq_true_eq] at hs
          simp [glsl_type.is_vector, hs]
        simp [hs, hv, ir_swizzle.new, ir_rvalue.type, glsl_type.get_instance]
      · simp [hs]
  | .cons (.swizzle val m t) rest => by
      simp only [rewrite_operands, rewrite_operand, visit_operands_cons, rewrite_spec_operands]
      rw [visit_operands_eq_spec N rest, visit_tree_eq_spec N (.swizzle val m t)]
  | .cons (.expression t op ops) rest => by
      simp only [rewrite_operands, rewrite_operand, visit_operands_cons, rewrite_spec_operands]
      rw [visit_operands_eq_spec N rest, visit_tree_eq_spec N (.expression t op ops)]
end

/-- C14, counterexample: item (a) does not hold of the tree after the rewrite.
The tree `(swiz x (expression float log2 (swiz x (var_ref v0))))` rewritten to
width 2 is `(swiz x (expression vec2 log2 (swiz xy (var_ref v0))))` of type
vec2: the operand of the outer swizzle is vector-typed after the rewrite, yet
the outer swizzle has kept its mask (0, 0, 0, 0; 1), because `rewrite_swizzle`
tested the operand type while the operand was still scalar.  The pass produces
this tree on two copies of `r1.x = (log2(v0.x)).x`. -/
theorem kept_mask_over_widened_operand :
    visit_tree nested_rhs ⟨0, 1, 2, 3, 2⟩ =
        .swizzle (.expression ⟨0, 2⟩ ir_unop_log2
          (.cons (.swizzle (.deref v0) ⟨0, 1, 2, 3, 2⟩ ⟨0, 2⟩) .nil)) ⟨0, 0, 0, 0, 1⟩ ⟨0, 2⟩ ∧
      (ir_rvalue.expression ⟨0, 2⟩ ir_unop_log2
          (.cons (.swizzle (.deref v0) ⟨0, 1, 2, 3, 2⟩ ⟨0, 2⟩) .nil)).type.is_vector = true ∧
      vector_swizzles_have_mask 2 (visit_tree nested_rhs ⟨0, 1, 2, 3, 2⟩) = false ∧
      do_vectorize [nested_assign, nested_assign] =
        some ([nested_assign,
          { nested_assign with rhs := visit_tree nested_rhs ⟨0, 1, 2, 3, 2⟩ }], true) := by
  decide

/-- C14, with operand types taken before the rewrite: the node-wise effect of
the rewrite.  For every right-hand side and every width `N`,
`visit_tree(rhs, rewrite_swizzle, {0, 1, 2, 3, N})` yields the tree described
node by node by `rewrite_spec`: a swizzle whose operand was vector-typed before
the rewrite gets the mask (0, 1, 2, 3; N), a swizzle whose operand was
scalar-typed before the rewrite keeps its mask, both get width `N`, expressions
get width `N` with base type and operation unchanged, operands that were bare
scalar-typed variable references are wrapped in a new swizzle (0, 0, 0, 0; N),
and nothing else changes. -/
theorem rewrite_is_node_wise (rhs : ir_rvalue) (N : Nat) :
    visit_tree rhs ⟨0, 1, 2, 3, N⟩ = rewrite_spec N rhs :=
  visit_tree_eq_spec N rhs

/-! ## Further witnesses and inputs on which the pass misbehaves -/

/-- Witness of C11 on `r1.x = s3; r1.y = s3`. -/
theorem no_swizzle_no_commit_witness :
    (∀ a ∈ [plain_assign 0, plain_assign 1], a.rhs.swizzles = []) ∧
      do_vectorize [plain_assign 0, plain_assign 1] =
        some ([plain_assign 0, plain_assign 1], false) :=
  ⟨by decide, (no_swizzle_no_commit [plain_assign 0, plain_assign 1] (by decide)).1⟩

/-- C12, failing input: on two copies of `r1.x = log2(v0.x)` both statements
are committed to the run (`open_run`), the run seals at the end of the list
holding two committed statements, and the output still has two statements: the
first copy, untouched, and the second copy rewritten to width 2. -/
theorem duplicate_channel_is_not_removed :
    open_run [log2_assign 0 0, log2_assign 0 0] 2 = [0, 1] ∧
      do_vectorize [log2_assign 0 0, log2_assign 0 0] =
        some ([log2_assign 0 0, log2_vector 2 1], true) := by
  decide

/-- Witness of C13 on the statement `r1.x = log2(v0.x)` with the one swizzle
node of its right-hand side. -/
theorem commit_rule_witness :
    fresh_visitor.has_swizzle = false ∧
      visit_enter_assignment fresh_visitor 0 (log2_assign 0 0) = some entered_visitor ∧
      node entered_visitor.instructions 0 = some (log2_assign 0 0) ∧
      ∃ v2 v3, visit_swizzles [⟨0, 0, 0, 0, 1⟩] entered_visitor = some v2 ∧
        visit_leave_assignment v2 0 = some v3 ∧
        v3.current_assignment = none ∧ v3.has_swizzle = false ∧
        ((([⟨0, 0, 0, 0, 1⟩] : List ir_swizzle_mask) ≠ [] ∧
            ∀ s ∈ ([⟨0, 0, 0, 0, 1⟩] : List ir_swizzle_mask),
              write_mask_to_swizzle (log2_assign 0 0).write_mask = some s.x) →
          ∃ ch, write_mask_to_swizzle (log2_assign 0 0).write_mask = some ch ∧
            v3.assignment = entered_visitor.assignment.set ch (some 0) ∧
            v3.channels = entered_visitor.channels + 1 ∧ v3.last_assignment = some 0) ∧
        (¬ ((([⟨0, 0, 0, 0, 1⟩] : List ir_swizzle_mask) ≠ [] ∧
            ∀ s ∈ ([⟨0, 0, 0, 0, 1⟩] : List ir_swizzle_mask),
              write_mask_to_swizzle (log2_assign 0 0).write_mask = some s.x)) →
          v3.assignment = entered_visitor.assignment ∧
            v3.channels = entered_visitor.channels ∧
            v3.last_assignment = entered_visitor.last_assignment) :=
  ⟨rfl, rfl, rfl,
    commit_rule fresh_visitor entered_visitor 0 (log2_assign 0 0) [⟨0, 0, 0, 0, 1⟩] rfl rfl rfl⟩

/-- C15, failing input: after the two copies of `r1.x = log2(v0.x)` have been
visited the filled count is 2 while a single slot is occupied, and the seal
rewrites the second copy to width 2 with the one-bit write mask X. -/
theorem filled_count_exceeds_occupied_slots :
    (state_after [log2_assign 0 0, log2_assign 0 0] 2).map
        (fun v => (v.assignment, v.channels, v.last_assignment,
          (try_vectorize v).instructions)) =
      some ([some 1, none, none, none], 2, some 1,
        [some (log2_assign 0 0), some (log2_vector 2 1)]) := by
  decide

/-- Witness of C16 on the five statements `r1.x = log2(v0.x)`, `r1.y = …`,
`r1.z = …`, `r1.w = …`, `r1.x = log2(v0.x)`: the fifth statement seals the run
of four and starts a fresh run. -/
theorem run_size_bound_witness :
    [log2_assign 0 0, log2_assign 1 1, log2_assign 2 2, log2_assign 3 3,
        log2_assign 0 0][4]? = some (log2_assign 0 0) ∧
      (open_run [log2_assign 0 0, log2_assign 1 1, log2_assign 2 2, log2_assign 3 3,
        log2_assign 0 0] 4).length = 4 ∧
      seals_at [log2_assign 0 0, log2_assign 1 1, log2_assign 2 2, log2_assign 3 3,
        log2_assign 0 0] 4 ∧
      open_run [log2_assign 0 0, log2_assign 1 1, log2_assign 2 2, log2_assign 3 3,
        log2_assign 0 0] 5 = if commits (log2_assign 0 0) = true then [4] else [] :=
  ⟨rfl, by decide,
    (run_size_bound [log2_assign 0 0, log2_assign 1 1, log2_assign 2 2, log2_assign 3 3,
      log2_assign 0 0]).2.2.1 4 (log2_assign 0 0) rfl (by decide)⟩

/-- Witness of C18 at the write mask 4. -/
theorem single_channel_iff_one_bit_witness :
    4 < 2 ^ 32 ∧
      ((single_channel_write_mask 4 = true ↔ ∃! i, (4 : Nat).testBit i = true) ∧
        (single_channel_write_mask 4 = true ↔ ∃ i, i < 32 ∧ 4 = 2 ^ i) ∧
        (4 < 16 → (single_channel_write_mask 4 = true ↔ 4 = 1 ∨ 4 = 2 ∨ 4 = 4 ∨ 4 = 8))) :=
  ⟨by decide, single_channel_iff_one_bit 4 (by decide)⟩

end Vectorize
